import Mathlib

/-!
Verification of the Hirschberg–Sinclair leader-election simulation
(`src/main.py`).  The per-process protocol code (`Message`, `Process.send`,
`Process.start_phase`, `Process.handle_message`, `connect_ring`) is embedded
as executable Lean functions; the threaded execution of `Process.run` and
`main` is embedded as a small-step transition system over a global state
holding every process's local state together with the multiset of in-flight
messages.  Per-inbox FIFO order is deliberately forgotten (any in-flight
message addressed to a process may be the next one it handles), which
over-approximates the interleavings of the threaded source, so every safety
property proved over this system holds of the source's executions.
-/

namespace HSElection

/-- Direction tag of a message; the source uses the strings "LEFT" and
"RIGHT" (src/main.py line 23). -/
inductive Direction where
  | LEFT
  | RIGHT
deriving DecidableEq

/-- Mirror of class `Message` (src/main.py lines 20-26).  `distance` is an
integer, as in Python, so the decrement in the forward rule is exact. -/
structure Message where
  origin_id : Nat
  direction : Direction
  phase : Nat
  distance : Int
  returning : Bool
deriving DecidableEq

/-- Mirror of the local state of class `Process` (src/main.py lines 33-51).
The queue handles `left_queue`/`right_queue` and the inbox live in
`GlobalState` (they are the ring wiring built by `connect_ring`); `started`
records whether the thread's `run` has executed its initial `start_phase`
call (line 128). -/
structure ProcState where
  pid : Nat
  phase : Nat
  confirm_left : Bool
  confirm_right : Bool
  running : Bool
  message_counter : Nat
  ring_size : Nat
  started : Bool
deriving DecidableEq

/-- Which of the two outgoing queues a send uses (`self.left_queue` or
`self.right_queue` in the source). -/
inductive Target where
  | toLeft
  | toRight
deriving DecidableEq

/-- Mirror of `Process.start_phase` (src/main.py lines 61-72): send one probe
of distance `2 ^ phase` on the left queue and one on the right queue, in that
order; each send increments `message_counter` (`Process.send`, line 55). -/
def start_phase (p : ProcState) : ProcState × List (Target × Message) :=
  let distance : Int := 2 ^ p.phase
  ({ p with message_counter := p.message_counter + 2 },
   [(Target.toLeft,
     { origin_id := p.pid, direction := Direction.LEFT, phase := p.phase,
       distance := distance, returning := false }),
    (Target.toRight,
     { origin_id := p.pid, direction := Direction.RIGHT, phase := p.phase,
       distance := distance, returning := false })])

/-- Mirror of `Process.handle_message` (src/main.py lines 74-124): the kill
rule (lines 81-83), the self-confirmation rule with termination or phase
advance (lines 86-110), and the forward/turn-around rule (lines 113-124).
Returns the updated local state together with the sends performed, in order;
`running = false` in the result corresponds to the source's
`self.stop_event.set(); self.running = False`. -/
def handle_message (p : ProcState) (msg : Message) : ProcState × List (Target × Message) :=
  if msg.returning = false ∧ msg.origin_id < p.pid then
    (p, [])
  else if msg.origin_id = p.pid ∧ msg.returning = true then
    let p1 := if msg.direction = Direction.LEFT
              then { p with confirm_left := true }
              else { p with confirm_right := true }
    if p1.confirm_left = true ∧ p1.confirm_right = true then
      let radius : Nat := 2 ^ p1.phase
      if p1.ring_size ≤ radius then
        ({ p1 with running := false }, [])
      else
        start_phase { p1 with phase := p1.phase + 1,
                              confirm_left := false, confirm_right := false }
    else (p1, [])
  else
    let msg1 := if msg.returning = false then
        { msg with distance := msg.distance - 1,
                   returning := decide (msg.distance - 1 = 0) }
      else msg
    let tgt := match msg.direction with
      | Direction.LEFT =>
          if msg1.returning = true then Target.toRight else Target.toLeft
      | Direction.RIGHT =>
          if msg1.returning = true then Target.toLeft else Target.toRight
    ({ p with message_counter := p.message_counter + 1 }, [(tgt, msg1)])

/-- Ring position whose inbox is the `left_queue` of position `i`, namely
`(i - 1) % n` in Python (src/main.py line 146). -/
def left_of (n i : Nat) : Nat := (i + n - 1) % n

/-- Ring position whose inbox is the `right_queue` of position `i`, namely
`(i + 1) % n` (src/main.py line 147). -/
def right_of (n i : Nat) : Nat := (i + 1) % n

/-- Mirror of `connect_ring` (src/main.py lines 143-150): for each position it
wires `left_queue` to the inbox of `(i-1) % n` and `right_queue` to the inbox
of `(i+1) % n`.  It performs no validation whatsoever — any list, of any
length and with any repetitions, is wired. -/
def connect_ring (pids : List Nat) : List (Nat × Nat) :=
  (List.range pids.length).map
    (fun i => (left_of pids.length i, right_of pids.length i))

/-- Modelled from the spec (section 4.3): `RingTopology.Connect` as the spec
describes it, failing (with `ConfigurationError`, rendered as `none`) if
`N < 2` or the identifiers are not unique.  This definition follows the
spec's words and exists only to be compared with `connect_ring`, which is
what the source actually does. -/
def connect_ring_spec (pids : List Nat) : Option (List (Nat × Nat)) :=
  if pids.length < 2 ∨ ¬pids.Nodup then none else some (connect_ring pids)

/-- Mirror of `main`'s N-validation loop (src/main.py lines 160-166): an
entered value is accepted iff it is not `< 2`; otherwise the loop re-prompts
(no exception is raised). -/
def main_accepts_N (n : Int) : Bool := decide (¬n < 2)

/-- Mirror of `main`'s manual-identifier validation (src/main.py lines
183-192): an entered identifier is accepted iff it is not `≤ 0` and is not
already in the list; otherwise the loop re-prompts (no exception). -/
def main_accepts_id (ids : List Int) (pid : Int) : Bool :=
  decide (¬pid ≤ 0) && decide (pid ∉ ids)

/-- Global simulation state: the processes in ring order (as built by `main`,
src/main.py lines 200-203) and the in-flight messages, each tagged with the
index of the destination inbox as wired by `connect_ring`. -/
structure GlobalState where
  procs : List ProcState
  inflight : List (Nat × Message)
  stop_event : Bool
deriving DecidableEq

/-- Mirror of `main`'s setup (src/main.py lines 200-203): one `Process` per
identifier, with `ring_size = N`, fresh flags and counters, empty inboxes,
and the shared stop event unset. -/
def init (ids : List Nat) : GlobalState :=
  { procs := ids.map (fun pid =>
      { pid := pid, phase := 0, confirm_left := false, confirm_right := false,
        running := true, message_counter := 0, ring_size := ids.length,
        started := false }),
    inflight := [],
    stop_event := false }

/-- Resolve a send by the process at ring position `i` to the destination
inbox index, following the wiring of `connect_ring`. -/
def resolve (n i : Nat) : Target × Message → Nat × Message
  | (Target.toLeft, m) => (left_of n i, m)
  | (Target.toRight, m) => (right_of n i, m)

/-- A scheduling choice: either the thread of process `i` performs its initial
`start_phase` (src/main.py line 128), or some process handles one in-flight
message addressed to it (`Process.run`'s loop, lines 130-137). -/
inductive Action where
  | start (i : Nat)
  | deliver (k : Nat)
deriving DecidableEq

/-- Default process state, used only to make list indexing total. -/
def dummy : ProcState :=
  { pid := 0, phase := 0, confirm_left := false, confirm_right := false,
    running := true, message_counter := 0, ring_size := 0, started := false }

/-- The process at ring position `o` (total indexing). -/
def pAt (s : GlobalState) (o : Nat) : ProcState := s.procs.getD o dummy

/-- One scheduling step.  `start i` requires that `i` has not started yet;
`deliver k` removes the `k`-th in-flight message and lets its destination
handle it, provided that destination has started and is still running
(`Process.run`, line 130).  A message may be handled even after the stop
event is set, as in the source, where a thread already blocked in
`inbox.get` can still receive and handle one more message. -/
def step (s : GlobalState) (a : Action) : Option GlobalState :=
  match a with
  | Action.start i =>
    if h : i < s.procs.length then
      let p := s.procs.get ⟨i, h⟩
      if p.started = false then
        let r := start_phase p
        some { procs := s.procs.set i { r.1 with started := true },
               inflight := s.inflight ++ r.2.map (resolve s.procs.length i),
               stop_event := s.stop_event }
      else none
    else none
  | Action.deliver k =>
    if hk : k < s.inflight.length then
      let jm := s.inflight.get ⟨k, hk⟩
      if hj : jm.1 < s.procs.length then
        let p := s.procs.get ⟨jm.1, hj⟩
        if p.started = true ∧ p.running = true then
          let r := handle_message p jm.2
          some { procs := s.procs.set jm.1 r.1,
                 inflight := s.inflight.eraseIdx k ++
                               r.2.map (resolve s.procs.length jm.1),
                 stop_event := s.stop_event || !r.1.running }
        else none
      else none
    else none

/-- Run a list of scheduling choices from a state. -/
def runActs (s : GlobalState) : List Action → Option GlobalState
  | [] => some s
  | a :: rest =>
    match step s a with
    | some s1 => runActs s1 rest
    | none => none

/-- A state is reachable from the ring built over `ids` if some schedule
produces it. -/
def Reachable (ids : List Nat) (s : GlobalState) : Prop :=
  ∃ acts : List Action, runActs (init ids) acts = some s

/-- Ring position `t` hops to the left of position `o` (indices mod `n`,
written without truncated subtraction: `-1 ≡ n-1`). -/
def offL (n o t : Nat) : Nat := (o + t * (n - 1)) % n

/-- Ring position `t` hops to the right of position `o`. -/
def offR (n o t : Nat) : Nat := (o + t) % n

/-- Ring position `t` hops away from `o` in direction `d`. -/
def offD (n : Nat) (d : Direction) (o t : Nat) : Nat :=
  match d with
  | Direction.LEFT => offL n o t
  | Direction.RIGHT => offR n o t

/-- Every process within `R` hops of position `o` in direction `d` (other
than `o` itself, for radii that wrap past the whole ring) carries a smaller
identifier than `o` does.  This is what surviving `R` kill checks of
`handle_message` establishes. -/
def SurvIds (ids : List Nat) (d : Direction) (o R : Nat) : Prop :=
  ∀ t, 1 ≤ t → t ≤ R → offD ids.length d o t ≠ o →
    ids.getD (offD ids.length d o t) 0 < ids.getD o 0

/-- Boolean test: the in-flight message was originated by the process at
position `o` and belongs to its direction-`d` probe. -/
def originPred (ids : List Nat) (o : Nat) (d : Direction) (jm : Nat × Message) : Bool :=
  decide (jm.2.origin_id = ids.getD o 0) && decide (jm.2.direction = d)

/-- Number of in-flight messages of origin position `o` and direction `d`. -/
def cnt (ids : List Nat) (s : GlobalState) (o : Nat) (d : Direction) : Nat :=
  s.inflight.countP (originPred ids o d)

/-- Shape invariant of one in-flight message addressed to inbox `j`: it was
originated by some ring position `o`; an outbound probe that has passed `c`
kill checks has distance `2 ^ phase - c ≥ 1`, sits `c + 1` hops from its
origin in its own direction, and all `c` checkers hold smaller identifiers;
an echo has distance 0 and certifies all `2 ^ phase` positions of its
outbound journey. -/
def MsgOK (ids : List Nat) (j : Nat) (m : Message) : Prop :=
  j < ids.length ∧
  ∃ o, o < ids.length ∧ ids.getD o 0 = m.origin_id ∧
    (m.returning = true →
      m.distance = 0 ∧ SurvIds ids m.direction o (2 ^ m.phase)) ∧
    (m.returning = false →
      ∃ c : Nat, c + 1 ≤ 2 ^ m.phase ∧
        m.distance = (2 ^ m.phase : Int) - (c : Int) ∧
        j = offD ids.length m.direction o (c + 1) ∧
        SurvIds ids m.direction o c)

/-- Invariant of the process at ring position `o`: its identifier and ring
size match the setup; before its thread starts it is pristine and owns no
in-flight messages; its phase history always satisfies `2 ^ (phase-1) < N`;
a set confirmation flag certifies the whole probed neighbourhood and means
the corresponding probe has been consumed; it owns at most one in-flight
message per direction, all at its current phase; and once stopped it had
both flags set at a radius covering the ring. -/
def ProcOK (ids : List Nat) (s : GlobalState) (o : Nat) : Prop :=
  (pAt s o).pid = ids.getD o 0 ∧
  (pAt s o).ring_size = ids.length ∧
  ((pAt s o).started = false →
    (pAt s o).phase = 0 ∧ (pAt s o).confirm_left = false ∧
    (pAt s o).confirm_right = false ∧ (pAt s o).running = true ∧
    cnt ids s o Direction.LEFT = 0 ∧ cnt ids s o Direction.RIGHT = 0) ∧
  ((pAt s o).started = true →
    (pAt s o).phase = 0 ∨ 2 ^ ((pAt s o).phase - 1) < ids.length) ∧
  ((pAt s o).confirm_left = true →
    SurvIds ids Direction.LEFT o (2 ^ (pAt s o).phase) ∧
    cnt ids s o Direction.LEFT = 0) ∧
  ((pAt s o).confirm_right = true →
    SurvIds ids Direction.RIGHT o (2 ^ (pAt s o).phase) ∧
    cnt ids s o Direction.RIGHT = 0) ∧
  cnt ids s o Direction.LEFT ≤ 1 ∧
  cnt ids s o Direction.RIGHT ≤ 1 ∧
  (∀ jm ∈ s.inflight, jm.2.origin_id = ids.getD o 0 → jm.2.phase = (pAt s o).phase) ∧
  ((pAt s o).running = false →
    (pAt s o).started = true ∧ (pAt s o).confirm_left = true ∧
    (pAt s o).confirm_right = true ∧ ids.length ≤ 2 ^ (pAt s o).phase)

/-- The global inductive invariant of the election. -/
def Inv (ids : List Nat) (s : GlobalState) : Prop :=
  s.procs.length = ids.length ∧
  (∀ o, o < ids.length → ProcOK ids s o) ∧
  (∀ jm ∈ s.inflight, MsgOK ids jm.1 jm.2)

/-- A schedule of the two-process ring [5, 1] that elects 5: both threads
start, then fourteen in-order deliveries complete phases 0 and 1 of
process 5 and the election. -/
def elect2 : List Action :=
  [Action.start 0, Action.start 1] ++ List.replicate 14 (Action.deliver 0)

/-- The first ten steps of `elect2`; afterwards, process 5's own phase-1
probes are back in its inbox, still outbound. -/
def elect2pre : List Action :=
  [Action.start 0, Action.start 1] ++ List.replicate 8 (Action.deliver 0)

/-- The empty global state, used as a default when extracting the result of
a concrete schedule. -/
def noState : GlobalState := { procs := [], inflight := [], stop_event := false }

/-- Final state of the `elect2` schedule. -/
def elect2End : GlobalState := (runActs (init [5, 1]) elect2).getD noState

/-- State after `elect2pre`. -/
def elect2Mid : GlobalState := (runActs (init [5, 1]) elect2pre).getD noState

/-- Total indexing agrees with dependent indexing below the length. -/
theorem getD_lt {α : Type} (l : List α) (d : α) (i : Nat) (h : i < l.length) :
    l.getD i d = l.get ⟨i, h⟩ := by
  rw [List.getD_eq_getElem l d h, List.get_eq_getElem]

/-- Updating position `i` changes total indexing there. -/
theorem getD_set_self {α : Type} (l : List α) (i : Nat) (x d : α)
    (h : i < l.length) : (l.set i x).getD i d = x := by
  rw [getD_lt _ _ _ (by simpa using h), List.get_eq_getElem]
  exact List.getElem_set_self _

/-- Updating position `i` leaves every other position unchanged. -/
theorem getD_set_ne {α : Type} (l : List α) (i j : Nat) (x d : α)
    (h : i ≠ j) : (l.set i x).getD j d = l.getD j d := by
  induction l generalizing i j with
  | nil => rfl
  | cons y ys ih =>
    cases i with
    | zero =>
      cases j with
      | zero => exact absurd rfl h
      | succ b => rfl
    | succ a =>
      cases j with
      | zero => rfl
      | succ b => exact ih a b (by omega)

/-- Members survive the removal of one index. -/
theorem mem_of_mem_eraseIdx {α : Type} {l : List α} {k : Nat} {x : α}
    (h : x ∈ l.eraseIdx k) : x ∈ l := by
  rw [List.mem_eraseIdx_iff_get] at h
  obtain ⟨i, -, hi⟩ := h
  exact hi ▸ List.get_mem l i.1 i.2

/-- Removing index `k` removes exactly one occurrence of whatever predicate
value sits there. -/
theorem countP_eraseIdx {α : Type} (p : α → Bool) (l : List α) (k : Nat)
    (hk : k < l.length) :
    (l.eraseIdx k).countP p + (if p (l.get ⟨k, hk⟩) = true then 1 else 0) =
      l.countP p := by
  induction l generalizing k with
  | nil => simp at hk
  | cons x xs ih =>
    cases k with
    | zero => simp [List.eraseIdx, List.countP_cons]
    | succ n =>
      have hn : n < xs.length := by simpa using hk
      have := ih n hn
      simp only [List.eraseIdx, List.countP_cons, List.get]
      omega

/-- In a duplicate-free list, positions with equal entries coincide. -/
theorem nodup_getD_inj {ids : List Nat} (hnd : ids.Nodup) {o o' : Nat}
    (ho : o < ids.length) (ho' : o' < ids.length)
    (h : ids.getD o 0 = ids.getD o' 0) : o = o' := by
  rw [getD_lt _ _ _ ho, getD_lt _ _ _ ho'] at h
  have := (List.Nodup.get_inj_iff hnd).mp h
  exact congrArg Fin.val this

/-- Ring offsets in one direction compose additively. -/
theorem offL_add (n o a b : Nat) : offL n (offL n o a) b = offL n o (a + b) := by
  unfold offL
  rw [Nat.mod_add_mod]
  congr 1
  ring

/-- Ring offsets in one direction compose additively. -/
theorem offR_add (n o a b : Nat) : offR n (offR n o a) b = offR n o (a + b) := by
  unfold offR
  rw [Nat.mod_add_mod]
  congr 1
  ring

/-- Ring offsets in one direction compose additively. -/
theorem offD_add (n : Nat) (d : Direction) (o a b : Nat) :
    offD n d (offD n d o a) b = offD n d o (a + b) := by
  cases d
  · exact offL_add n o a b
  · exact offR_add n o a b

/-- Offsets stay below the ring size. -/
theorem offD_lt (n : Nat) (d : Direction) (o t : Nat) (hn : 0 < n) :
    offD n d o t < n := by
  cases d
  · exact Nat.mod_lt _ hn
  · exact Nat.mod_lt _ hn

/-- The left queue of position `j` feeds the inbox one hop to the left. -/
theorem left_of_eq_offL (n j : Nat) (hn : 0 < n) : left_of n j = offL n j 1 := by
  unfold left_of offL
  congr 1
  omega

/-- The right queue of position `j` feeds the inbox one hop to the right. -/
theorem right_of_eq_offR (n j : Nat) : right_of n j = offR n j 1 := rfl

/-- Every position other than `o` lies at some rightward offset `1 … n-1`
from `o`. -/
theorem offR_cover {n o q : Nat} (ho : o < n) (hq : q < n) (hne : q ≠ o) :
    ∃ t, 1 ≤ t ∧ t ≤ n - 1 ∧ offR n o t = q := by
  by_cases h : o < q
  · refine ⟨q - o, by omega, by omega, ?_⟩
    unfold offR
    rw [Nat.add_sub_cancel' (by omega : o ≤ q)]
    exact Nat.mod_eq_of_lt hq
  · refine ⟨q + n - o, by omega, by omega, ?_⟩
    unfold offR
    have h1 : o + (q + n - o) = q + n := by omega
    rw [h1, Nat.add_mod_right]
    exact Nat.mod_eq_of_lt hq

/-- The kill rule (src/main.py lines 81-83): the message is dropped and the
whole local state is untouched. -/
theorem handle_message_kill (p : ProcState) (m : Message)
    (h1 : m.returning = false) (h2 : m.origin_id < p.pid) :
    handle_message p m = (p, []) := by
  unfold handle_message
  rw [if_pos ⟨h1, h2⟩]

/-- The self-confirmation rule (src/main.py lines 86-110), with the flag
update, the termination test and the phase advance made explicit. -/
theorem handle_message_confirm (p : ProcState) (m : Message)
    (h2 : m.origin_id = p.pid) (h1 : m.returning = true) :
    handle_message p m =
      (let p1 := if m.direction = Direction.LEFT
                 then { p with confirm_left := true }
                 else { p with confirm_right := true }
       if p1.confirm_left = true ∧ p1.confirm_right = true then
         if p1.ring_size ≤ 2 ^ p1.phase then
           ({ p1 with running := false }, [])
         else
           start_phase { p1 with phase := p1.phase + 1,
                                 confirm_left := false, confirm_right := false }
       else (p1, [])) := by
  unfold handle_message
  rw [if_neg (by simp [h1]), if_pos ⟨h2, h1⟩]

/-- The forward/turn-around rule (src/main.py lines 113-124): when neither
the kill rule nor the self-confirmation rule fires, exactly one message is
relayed. -/
theorem handle_message_forward (p : ProcState) (m : Message)
    (hk : ¬(m.returning = false ∧ m.origin_id < p.pid))
    (hc : ¬(m.origin_id = p.pid ∧ m.returning = true)) :
    handle_message p m =
      (let msg1 := if m.returning = false then
           { m with distance := m.distance - 1,
                    returning := decide (m.distance - 1 = 0) }
         else m
       let tgt := match m.direction with
         | Direction.LEFT =>
             if msg1.returning = true then Target.toRight else Target.toLeft
         | Direction.RIGHT =>
             if msg1.returning = true then Target.toLeft else Target.toRight
       ({ p with message_counter := p.message_counter + 1 }, [(tgt, msg1)])) := by
  unfold handle_message
  rw [if_neg hk, if_neg hc]

/-- Inversion of a successful `start` step. -/
theorem step_start_eq {s : GlobalState} {i : Nat} {s' : GlobalState}
    (h : step s (Action.start i) = some s') :
    i < s.procs.length ∧ (pAt s i).started = false ∧
      s' = { procs := s.procs.set i { (start_phase (pAt s i)).1 with started := true },
             inflight := s.inflight ++
                           (start_phase (pAt s i)).2.map (resolve s.procs.length i),
             stop_event := s.stop_event } := by
  simp only [step] at h
  split at h
  next hi =>
    rw [show s.procs.get ⟨i, hi⟩ = pAt s i from (getD_lt _ _ _ hi).symm] at h
    split at h
    next hst =>
      exact ⟨hi, hst, (Option.some.injEq _ _).mp h.symm⟩
    next => exact absurd h (by simp)
  next => exact absurd h (by simp)

/-- Inversion of a successful `deliver` step. -/
theorem step_deliver_eq {s : GlobalState} {k : Nat} {s' : GlobalState}
    (h : step s (Action.deliver k) = some s') :
    ∃ hk : k < s.inflight.length,
      (s.inflight.get ⟨k, hk⟩).1 < s.procs.length ∧
      (pAt s (s.inflight.get ⟨k, hk⟩).1).started = true ∧
      (pAt s (s.inflight.get ⟨k, hk⟩).1).running = true ∧
      s' = { procs := s.procs.set (s.inflight.get ⟨k, hk⟩).1
                        (handle_message (pAt s (s.inflight.get ⟨k, hk⟩).1)
                          (s.inflight.get ⟨k, hk⟩).2).1,
             inflight := s.inflight.eraseIdx k ++
                           (handle_message (pAt s (s.inflight.get ⟨k, hk⟩).1)
                             (s.inflight.get ⟨k, hk⟩).2).2.map
                             (resolve s.procs.length (s.inflight.get ⟨k, hk⟩).1),
             stop_event := s.stop_event ||
                             !(handle_message (pAt s (s.inflight.get ⟨k, hk⟩).1)
                                 (s.inflight.get ⟨k, hk⟩).2).1.running } := by
  simp only [step] at h
  split at h
  next hk =>
    split at h
    next hj =>
      rw [show s.procs.get ⟨(s.inflight.get ⟨k, hk⟩).1, hj⟩
            = pAt s (s.inflight.get ⟨k, hk⟩).1 from (getD_lt _ _ _ hj).symm] at h
      split at h
      next hg =>
        exact ⟨hk, hj, hg.1, hg.2, (Option.some.injEq _ _).mp h.symm⟩
      next => exact absurd h (by simp)
    next => exact absurd h (by simp)
  next => exact absurd h (by simp)

/-- Unfolding lemma: the test of `originPred`. -/
theorem originPred_true_iff (ids : List Nat) (o : Nat) (d : Direction)
    (jm : Nat × Message) :
    originPred ids o d jm = true ↔
      (jm.2.origin_id = ids.getD o 0 ∧ jm.2.direction = d) := by
  simp [originPred]

/-- A message of another origin never counts. -/
theorem originPred_false_origin (ids : List Nat) (o : Nat) (d : Direction)
    (jm : Nat × Message) (h : ¬jm.2.origin_id = ids.getD o 0) :
    originPred ids o d jm = false := by
  rw [Bool.eq_false_iff]
  intro hp
  exact h ((originPred_true_iff ids o d jm).mp hp).1

/-- A message of another direction never counts. -/
theorem originPred_false_dir (ids : List Nat) (o : Nat) (d : Direction)
    (jm : Nat × Message) (h : ¬jm.2.direction = d) :
    originPred ids o d jm = false := by
  rw [Bool.eq_false_iff]
  intro hp
  exact h ((originPred_true_iff ids o d jm).mp hp).2

/-- Erasing an index never increases a `countP`. -/
theorem countP_eraseIdx_le {α : Type} (p : α → Bool) (l : List α) (k : Nat) :
    (l.eraseIdx k).countP p ≤ l.countP p := by
  by_cases hk : k < l.length
  · have := countP_eraseIdx p l k hk
    omega
  · rw [List.eraseIdx_of_length_le (by omega)]

/-- Erasing an index whose entry fails the predicate keeps the count. -/
theorem countP_eraseIdx_false {α : Type} (p : α → Bool) (l : List α) (k : Nat)
    (hk : k < l.length) (hp : ¬p (l.get ⟨k, hk⟩) = true) :
    (l.eraseIdx k).countP p = l.countP p := by
  have := countP_eraseIdx p l k hk
  rw [if_neg hp] at this
  omega

/-- Erasing an index whose entry satisfies the predicate drops the count by
one. -/
theorem countP_eraseIdx_true {α : Type} (p : α → Bool) (l : List α) (k : Nat)
    (hk : k < l.length) (hp : p (l.get ⟨k, hk⟩) = true) :
    (l.eraseIdx k).countP p + 1 = l.countP p := by
  have := countP_eraseIdx p l k hk
  rw [if_pos hp] at this
  omega

/-- A process whose probes are all consumed has no in-flight message at
all. -/
theorem no_origin_of_cnt_zero {ids : List Nat} {s : GlobalState} {o : Nat}
    (hL : cnt ids s o Direction.LEFT = 0) (hR : cnt ids s o Direction.RIGHT = 0) :
    ∀ jm ∈ s.inflight, ¬jm.2.origin_id = ids.getD o 0 := by
  intro jm hmem heq
  cases hd : jm.2.direction
  · exact absurd (List.countP_eq_zero.mp hL jm hmem)
      (by simp [originPred_true_iff, heq, hd])
  · exact absurd (List.countP_eq_zero.mp hR jm hmem)
      (by simp [originPred_true_iff, heq, hd])

/-- The local state produced by `start_phase`. -/
theorem start_phase_fst (p : ProcState) :
    (start_phase p).1 = { p with message_counter := p.message_counter + 2 } := rfl

/-- The two wired sends of `start_phase`: a LEFT probe into the left
neighbour's inbox and a RIGHT probe into the right neighbour's inbox. -/
theorem start_phase_sends (p : ProcState) (n i : Nat) :
    (start_phase p).2.map (resolve n i) =
      [(left_of n i,
        { origin_id := p.pid, direction := Direction.LEFT, phase := p.phase,
          distance := (2 ^ p.phase : Int), returning := false }),
       (right_of n i,
        { origin_id := p.pid, direction := Direction.RIGHT, phase := p.phase,
          distance := (2 ^ p.phase : Int), returning := false })] := rfl

/-- A freshly sent probe of any phase satisfies the message invariant: it
sits one hop from its origin and has passed no kill check yet. -/
theorem MsgOK_fresh (ids : List Nat) (o : Nat) (ho : o < ids.length)
    (d : Direction) (ph : Nat) :
    MsgOK ids (offD ids.length d o 1)
      { origin_id := ids.getD o 0, direction := d, phase := ph,
        distance := (2 ^ ph : Int), returning := false } := by
  refine ⟨offD_lt _ _ _ _ (by omega), o, ho, rfl, by simp, ?_⟩
  intro _
  refine ⟨0, by simpa using Nat.one_le_two_pow, by push_cast; ring, by simp, ?_⟩
  intro t ht1 ht0 _
  omega

/-- The process states of the initial global state. -/
theorem pAt_init (ids : List Nat) (o : Nat) (ho : o < ids.length) :
    pAt (init ids) o =
      { pid := ids.getD o 0, phase := 0, confirm_left := false,
        confirm_right := false, running := true, message_counter := 0,
        ring_size := ids.length, started := false } := by
  unfold pAt init
  rw [getD_lt _ _ _ (by simpa using ho), List.get_eq_getElem, List.getElem_map,
    getD_lt ids 0 o ho, List.get_eq_getElem]

/-- The initial state satisfies the global invariant. -/
theorem inv_init (ids : List Nat) : Inv ids (init ids) := by
  refine ⟨by simp [init], ?_, ?_⟩
  · intro o ho
    rw [ProcOK, pAt_init ids o ho]
    refine ⟨rfl, rfl, ?_, by simp, by simp, by simp, ?_, ?_, ?_, by simp⟩
    · exact fun _ => ⟨rfl, rfl, rfl, rfl, rfl, rfl⟩
    · simp [cnt, init]
    · simp [cnt, init]
    · intro jm hmem
      simp [init] at hmem
  · intro jm hmem
    simp [init] at hmem

/-- A list holding no LEFT-probe and no RIGHT-probe of origin `o` holds no
message of origin `o` at all. -/
theorem no_origin_of_countP_zero {ids : List Nat} {l : List (Nat × Message)}
    {o : Nat} (hL : l.countP (originPred ids o Direction.LEFT) = 0)
    (hR : l.countP (originPred ids o Direction.RIGHT) = 0) :
    ∀ jm ∈ l, ¬jm.2.origin_id = ids.getD o 0 := by
  intro jm hmem heq
  cases hd : jm.2.direction
  · exact absurd (List.countP_eq_zero.mp hL jm hmem)
      (by simp [originPred_true_iff, heq, hd])
  · exact absurd (List.countP_eq_zero.mp hR jm hmem)
      (by simp [originPred_true_iff, heq, hd])

/-- Replacing the erased message by one that counts the same keeps every
count. -/
theorem countP_eraseIdx_append_singleton {α : Type} (p : α → Bool)
    (l : List α) (k : Nat) (hk : k < l.length) (x : α)
    (hx : p x = p (l.get ⟨k, hk⟩)) :
    ((l.eraseIdx k) ++ [x]).countP p = l.countP p := by
  rw [List.countP_append]
  have h1 := countP_eraseIdx p l k hk
  have h2 : List.countP p [x] = if p (l.get ⟨k, hk⟩) = true then 1 else 0 := by
    simp [List.countP_cons, hx]
  rw [h2]
  omega

/-- Two messages with the same origin and direction count alike. -/
theorem originPred_congr (ids : List Nat) (o : Nat) (d : Direction)
    (jm jm' : Nat × Message) (h1 : jm.2.origin_id = jm'.2.origin_id)
    (h2 : jm.2.direction = jm'.2.direction) :
    originPred ids o d jm = originPred ids o d jm' := by
  simp [originPred, h1, h2]

/-- Extending a survival certificate by the one position just checked. -/
theorem SurvIds_extend {ids : List Nat} {d : Direction} {o c : Nat}
    (hsurv : SurvIds ids d o c)
    (hnew : offD ids.length d o (c + 1) ≠ o →
      ids.getD (offD ids.length d o (c + 1)) 0 < ids.getD o 0) :
    SurvIds ids d o (c + 1) := by
  intro t ht1 ht2 hne
  rcases Nat.lt_or_ge t (c + 1) with hlt' | hge
  · exact hsurv t ht1 (by omega) hne
  · have ht : t = c + 1 := by omega
    subst ht
    exact hnew hne

/-- Confirmation with the opposite flag still unset (src/main.py lines
86-92): only the matching flag is set, nothing is sent. -/
theorem hm_confL_notboth (p : ProcState) (m : Message)
    (hco : m.origin_id = p.pid) (hr : m.returning = true)
    (hd : m.direction = Direction.LEFT) (hother : p.confirm_right = false) :
    handle_message p m = ({ p with confirm_left := true }, []) := by
  rw [handle_message_confirm p m hco hr, hd]
  simp [hother]

/-- Confirmation with the opposite flag still unset, RIGHT probe version. -/
theorem hm_confR_notboth (p : ProcState) (m : Message)
    (hco : m.origin_id = p.pid) (hr : m.returning = true)
    (hd : m.direction = Direction.RIGHT) (hother : p.confirm_left = false) :
    handle_message p m = ({ p with confirm_right := true }, []) := by
  rw [handle_message_confirm p m hco hr, hd]
  simp [hother]

/-- Final confirmation at full radius (src/main.py lines 94-103): the
process declares itself leader and stops. -/
theorem hm_confL_term (p : ProcState) (m : Message)
    (hco : m.origin_id = p.pid) (hr : m.returning = true)
    (hd : m.direction = Direction.LEFT) (hother : p.confirm_right = true)
    (hrad : p.ring_size ≤ 2 ^ p.phase) :
    handle_message p m =
      ({ p with confirm_left := true, running := false }, []) := by
  rw [handle_message_confirm p m hco hr, hd]
  simp [hother, hrad]

/-- Final confirmation at full radius, RIGHT probe version. -/
theorem hm_confR_term (p : ProcState) (m : Message)
    (hco : m.origin_id = p.pid) (hr : m.returning = true)
    (hd : m.direction = Direction.RIGHT) (hother : p.confirm_left = true)
    (hrad : p.ring_size ≤ 2 ^ p.phase) :
    handle_message p m =
      ({ p with confirm_right := true, running := false }, []) := by
  rw [handle_message_confirm p m hco hr, hd]
  simp [hother, hrad]

/-- Full confirmation below full radius (src/main.py lines 105-109): advance
one phase, clear both flags, start the next phase. -/
theorem hm_confL_adv (p : ProcState) (m : Message)
    (hco : m.origin_id = p.pid) (hr : m.returning = true)
    (hd : m.direction = Direction.LEFT) (hother : p.confirm_right = true)
    (hrad : ¬p.ring_size ≤ 2 ^ p.phase) :
    handle_message p m =
      start_phase { p with phase := p.phase + 1,
                           confirm_left := false, confirm_right := false } := by
  rw [handle_message_confirm p m hco hr, hd]
  simp [hother, hrad]

/-- Full confirmation below full radius, RIGHT probe version. -/
theorem hm_confR_adv (p : ProcState) (m : Message)
    (hco : m.origin_id = p.pid) (hr : m.returning = true)
    (hd : m.direction = Direction.RIGHT) (hother : p.confirm_left = true)
    (hrad : ¬p.ring_size ≤ 2 ^ p.phase) :
    handle_message p m =
      start_phase { p with phase := p.phase + 1,
                           confirm_left := false, confirm_right := false } := by
  rw [handle_message_confirm p m hco hr, hd]
  simp [hother, hrad]

/-- Forwarding an outbound probe whose decrement reaches zero (src/main.py
lines 113-124): it turns around and is sent back the way it came. -/
theorem hm_forward_out_flip (p : ProcState) (m : Message)
    (hnk : ¬m.origin_id < p.pid) (hr : m.returning = false)
    (hfl : m.distance - 1 = 0) :
    handle_message p m =
      ({ p with message_counter := p.message_counter + 1 },
       [((match m.direction with
          | Direction.LEFT => Target.toRight
          | Direction.RIGHT => Target.toLeft),
         { m with distance := m.distance - 1, returning := true })]) := by
  rw [handle_message_forward p m (by simp [hr, hnk]) (by simp [hr])]
  cases hd : m.direction <;> simp [hr, hd, hfl]

/-- Forwarding an outbound probe with distance remaining: it continues in
the direction it was travelling. -/
theorem hm_forward_out_go (p : ProcState) (m : Message)
    (hnk : ¬m.origin_id < p.pid) (hr : m.returning = false)
    (hfl : ¬m.distance - 1 = 0) :
    handle_message p m =
      ({ p with message_counter := p.message_counter + 1 },
       [((match m.direction with
          | Direction.LEFT => Target.toLeft
          | Direction.RIGHT => Target.toRight),
         { m with distance := m.distance - 1, returning := false })]) := by
  rw [handle_message_forward p m (by simp [hr, hnk]) (by simp [hr])]
  cases hd : m.direction <;> simp [hr, hd, hfl]

/-- Relaying a returning echo of another process: it is passed on unchanged,
reversing travel relative to its tag. -/
theorem hm_forward_ret (p : ProcState) (m : Message)
    (hnc : ¬m.origin_id = p.pid) (hr : m.returning = true) :
    handle_message p m =
      ({ p with message_counter := p.message_counter + 1 },
       [((match m.direction with
          | Direction.LEFT => Target.toRight
          | Direction.RIGHT => Target.toLeft), m)]) := by
  rw [handle_message_forward p m (by simp [hr]) (by simp [hnc])]
  cases hd : m.direction <;> simp [hr, hd]

/-- Count over a two-element list. -/
theorem countP_two {α : Type} (p : α → Bool) (x y : α) :
    List.countP p [x, y] =
      (if p x = true then 1 else 0) + (if p y = true then 1 else 0) := by
  simp [List.countP_cons]
  omega

/-- One `start` step preserves the global invariant. -/
theorem inv_start {ids : List Nat} {s s' : GlobalState} {i : Nat}
    (hnd : ids.Nodup) (hI : Inv ids s)
    (h : step s (Action.start i) = some s') : Inv ids s' := by
  obtain ⟨hi, hst, hs'⟩ := step_start_eq h
  obtain ⟨hlen, hP, hM⟩ := hI
  have hin : i < ids.length := hlen ▸ hi
  have hnpos : 0 < ids.length := by omega
  obtain ⟨hpid, hring, hfresh, -, -, -, -, -, -, -⟩ := hP i hin
  obtain ⟨hph0, hcl, hcr, hrun, hcL, hcR⟩ := hfresh hst
  have hnone := no_origin_of_cnt_zero hcL hcR
  have hprocs' : s'.procs = s.procs.set i
      { pAt s i with message_counter := (pAt s i).message_counter + 2,
                     started := true } := by
    rw [hs']
    rfl
  have hinfl' : s'.inflight = s.inflight ++
      [(left_of s.procs.length i,
        { origin_id := (pAt s i).pid, direction := Direction.LEFT,
          phase := (pAt s i).phase, distance := (2 ^ (pAt s i).phase : Int),
          returning := false }),
       (right_of s.procs.length i,
        { origin_id := (pAt s i).pid, direction := Direction.RIGHT,
          phase := (pAt s i).phase, distance := (2 ^ (pAt s i).phase : Int),
          returning := false })] := by
    rw [hs', start_phase_sends]
  have hpAt_i : pAt s' i = { pAt s i with
      message_counter := (pAt s i).message_counter + 2, started := true } := by
    unfold pAt
    rw [hprocs']
    exact getD_set_self _ _ _ _ hi
  have hpAt_ne : ∀ o, o ≠ i → pAt s' o = pAt s o := by
    intro o hne
    unfold pAt
    rw [hprocs']
    exact getD_set_ne _ _ _ _ _ (fun he => hne he.symm)
  have countP_pair : ∀ {α : Type} (p : α → Bool) (x y : α),
      List.countP p [x, y] =
        (if p x = true then 1 else 0) + (if p y = true then 1 else 0) := by
    intro α p x y
    simp [List.countP_cons]
    omega
  have hcnt_ne : ∀ o d, o < ids.length → o ≠ i →
      cnt ids s' o d = cnt ids s o d := by
    intro o d ho hne
    have hne' : ¬(pAt s i).pid = ids.getD o 0 := by
      rw [hpid]
      exact fun he => hne (nodup_getD_inj hnd hin ho he).symm
    have h1 : ∀ (jx : Nat) (mx : Message), mx.origin_id = (pAt s i).pid →
        originPred ids o d (jx, mx) = false := by
      intro jx mx hmx
      rw [Bool.eq_false_iff]
      intro hp
      exact hne' (hmx.symm.trans ((originPred_true_iff ids o d (jx, mx)).mp hp).1)
    unfold cnt
    rw [hinfl', List.countP_append, countP_pair, h1 _ _ rfl, h1 _ _ rfl]
    simp
  have hcnt_iL : cnt ids s' i Direction.LEFT = cnt ids s i Direction.LEFT + 1 := by
    unfold cnt
    rw [hinfl', List.countP_append, countP_pair]
    rw [(originPred_true_iff ids i Direction.LEFT (left_of s.procs.length i,
       { origin_id := (pAt s i).pid, direction := Direction.LEFT,
         phase := (pAt s i).phase, distance := (2 ^ (pAt s i).phase : Int),
         returning := false })).mpr ⟨hpid, rfl⟩]
    rw [originPred_false_dir ids i Direction.LEFT (right_of s.procs.length i,
       { origin_id := (pAt s i).pid, direction := Direction.RIGHT,
         phase := (pAt s i).phase, distance := (2 ^ (pAt s i).phase : Int),
         returning := false }) (by simp)]
    simp
  have hcnt_iR : cnt ids s' i Direction.RIGHT = cnt ids s i Direction.RIGHT + 1 := by
    unfold cnt
    rw [hinfl', List.countP_append, countP_pair]
    rw [originPred_false_dir ids i Direction.RIGHT (left_of s.procs.length i,
       { origin_id := (pAt s i).pid, direction := Direction.LEFT,
         phase := (pAt s i).phase, distance := (2 ^ (pAt s i).phase : Int),
         returning := false }) (by simp)]
    rw [(originPred_true_iff ids i Direction.RIGHT (right_of s.procs.length i,
       { origin_id := (pAt s i).pid, direction := Direction.RIGHT,
         phase := (pAt s i).phase, distance := (2 ^ (pAt s i).phase : Int),
         returning := false })).mpr ⟨hpid, rfl⟩]
    simp
  refine ⟨by rw [hprocs']; simpa [List.length_set] using hlen, ?_, ?_⟩
  · intro o ho
    obtain ⟨hpid', hring', hfresh', hstar', hconfL', hconfR', hle1L, hle1R,
      hphm', hstop'⟩ := hP o ho
    by_cases hoi : o = i
    · subst hoi
      rw [ProcOK, hpAt_i, hcnt_iL, hcnt_iR]
      refine ⟨by simpa using hpid, by simpa using hring, by simp, ?_, ?_, ?_,
        by omega, by omega, ?_, ?_⟩
      · intro _
        exact Or.inl (by simpa using hph0)
      · intro hx
        exact absurd hx (by simp [hcl])
      · intro hx
        exact absurd hx (by simp [hcr])
      · intro jm hmem horig
        rw [hinfl'] at hmem
        rcases List.mem_append.mp hmem with hold | hnew
        · exact absurd (hpid ▸ horig) (hnone jm hold)
        · simp only [List.mem_cons, List.mem_singleton, List.not_mem_nil,
            or_false] at hnew
          rcases hnew with h1 | h1
          · simp [h1]
          · simp [h1]
      · intro hx
        exact absurd hx (by simp [hrun])
    · rw [ProcOK, hpAt_ne o hoi, hcnt_ne o Direction.LEFT ho hoi,
        hcnt_ne o Direction.RIGHT ho hoi]
      refine ⟨hpid', hring', hfresh', hstar', hconfL', hconfR', hle1L, hle1R,
        ?_, hstop'⟩
      intro jm hmem horig
      rw [hinfl'] at hmem
      rcases List.mem_append.mp hmem with hold | hnew
      · exact hphm' jm hold horig
      · have hne' : ¬(pAt s i).pid = ids.getD o 0 := by
          rw [hpid]
          exact fun he => hoi (nodup_getD_inj hnd hin ho he).symm
        simp only [List.mem_cons, List.mem_singleton, List.not_mem_nil,
          or_false] at hnew
        rcases hnew with h1 | h1
        · rw [h1] at horig
          exact absurd horig hne'
        · rw [h1] at horig
          exact absurd horig hne'
  · intro jm hmem
    rw [hinfl'] at hmem
    rcases List.mem_append.mp hmem with hold | hnew
    · exact hM jm hold
    · simp only [List.mem_cons, List.mem_singleton, List.not_mem_nil,
        or_false] at hnew
      have hL := MsgOK_fresh ids i hin Direction.LEFT (pAt s i).phase
      have hR := MsgOK_fresh ids i hin Direction.RIGHT (pAt s i).phase
      rcases hnew with h1 | h1
      · rw [h1]
        simpa [hpid, offD, left_of_eq_offL ids.length i hnpos, hlen] using hL
      · rw [h1]
        simpa [hpid, offD, right_of_eq_offR, hlen] using hR

/-- One `deliver` step preserves the global invariant. -/
theorem inv_deliver {ids : List Nat} {s s' : GlobalState} {k : Nat}
    (hnd : ids.Nodup) (hI : Inv ids s)
    (h : step s (Action.deliver k) = some s') : Inv ids s' := by
  obtain ⟨hk, hj, hst, hrun, hs'⟩ := step_deliver_eq h
  obtain ⟨hlen, hP, hM⟩ := hI
  rcases hget : s.inflight.get ⟨k, hk⟩ with ⟨j, m⟩
  rw [hget] at hj hst hrun hs'
  simp only [] at hj hst hrun hs'
  have hjn : j < ids.length := hlen ▸ hj
  have hnpos : 0 < ids.length := by omega
  have hmem : (j, m) ∈ s.inflight := by
    rw [← hget]
    exact List.get_mem s.inflight k hk
  obtain ⟨hpidj, hringj, hfreshj, hstarj, hconfLj, hconfRj, hle1Lj, hle1Rj,
    hphmj, hstopj⟩ := hP j hjn
  obtain ⟨-, o, ho, hoid0, hretm0, houtm0⟩ := hM (j, m) hmem
  have hoid : ids.getD o 0 = m.origin_id := hoid0
  have hretm : m.returning = true →
      m.distance = 0 ∧ SurvIds ids m.direction o (2 ^ m.phase) := hretm0
  have houtm : m.returning = false → ∃ c : Nat, c + 1 ≤ 2 ^ m.phase ∧
      m.distance = (2 ^ m.phase : Int) - (c : Int) ∧
      j = offD ids.length m.direction o (c + 1) ∧
      SurvIds ids m.direction o c := houtm0
  have hpred_ne : ∀ o' d, o' < ids.length → o' ≠ o →
      originPred ids o' d ((j, m) : Nat × Message) = false := by
    intro o' d ho' hne
    refine originPred_false_origin _ _ _ _ ?_
    exact fun he => hne (nodup_getD_inj hnd ho ho' (hoid.trans he)).symm
  have herase_true : ∀ o' d, originPred ids o' d ((j, m) : Nat × Message) = true →
      (s.inflight.eraseIdx k).countP (originPred ids o' d) + 1 = cnt ids s o' d := by
    intro o' d hp
    exact countP_eraseIdx_true _ _ _ hk (by rwa [hget])
  have herase_false : ∀ o' d, originPred ids o' d ((j, m) : Nat × Message) = false →
      (s.inflight.eraseIdx k).countP (originPred ids o' d) = cnt ids s o' d := by
    intro o' d hp
    exact countP_eraseIdx_false _ _ _ hk (by rw [hget]; simp [hp])
  by_cases hkill : m.returning = false ∧ m.origin_id < (pAt s j).pid
  · -- the kill rule: the message vanishes, nothing else changes
    have hhm := handle_message_kill (pAt s j) m hkill.1 hkill.2
    have hprocs' : s'.procs = s.procs.set j (pAt s j) := by
      rw [hs', hhm]
    have hinfl' : s'.inflight = s.inflight.eraseIdx k := by
      rw [hs', hhm]
      simp
    have hpA : ∀ o', pAt s' o' = pAt s o' := by
      intro o'
      unfold pAt
      rw [hprocs']
      by_cases ho' : j = o'
      · rw [← ho']
        exact getD_set_self _ _ _ _ hj
      · exact getD_set_ne _ _ _ _ _ ho'
    have hcle : ∀ o' d, cnt ids s' o' d ≤ cnt ids s o' d := by
      intro o' d
      unfold cnt
      rw [hinfl']
      exact countP_eraseIdx_le _ _ _
    refine ⟨by rw [hprocs']; simpa [List.length_set] using hlen, ?_, ?_⟩
    · intro o' ho'
      obtain ⟨hpid', hring', hfresh', hstar', hconfL', hconfR', hle1L, hle1R,
        hphm', hstop'⟩ := hP o' ho'
      rw [ProcOK, hpA o']
      refine ⟨hpid', hring', ?_, hstar', ?_, ?_, ?_, ?_, ?_, hstop'⟩
      · intro hx
        obtain ⟨a, b, c2, d2, e2, f2⟩ := hfresh' hx
        refine ⟨a, b, c2, d2, ?_, ?_⟩
        · have := hcle o' Direction.LEFT
          omega
        · have := hcle o' Direction.RIGHT
          omega
      · intro hx
        obtain ⟨hs1, hc0⟩ := hconfL' hx
        exact ⟨hs1, by have := hcle o' Direction.LEFT; omega⟩
      · intro hx
        obtain ⟨hs1, hc0⟩ := hconfR' hx
        exact ⟨hs1, by have := hcle o' Direction.RIGHT; omega⟩
      · have := hcle o' Direction.LEFT
        omega
      · have := hcle o' Direction.RIGHT
        omega
      · intro jm' hmem' horig'
        rw [hinfl'] at hmem'
        exact hphm' jm' (mem_of_mem_eraseIdx hmem') horig'
    · intro jm' hmem'
      rw [hinfl'] at hmem'
      exact hM jm' (mem_of_mem_eraseIdx hmem')
  · by_cases hconf : m.origin_id = (pAt s j).pid ∧ m.returning = true
    · -- the self-confirmation rule
      obtain ⟨hco, hrt⟩ := hconf
      have hoj : o = j := nodup_getD_inj hnd ho hjn (by rw [hoid, hco, hpidj])
      subst hoj
      have horigj : m.origin_id = ids.getD o 0 := by rw [hco, hpidj]
      have hmph : m.phase = (pAt s o).phase := hphmj (o, m) hmem horigj
      obtain ⟨hdist0, hsurvm⟩ := hretm hrt
      have hpredm : originPred ids o m.direction ((o, m) : Nat × Message) = true :=
        (originPred_true_iff _ _ _ _).mpr ⟨horigj, rfl⟩
      cases hmd : m.direction with
      | LEFT =>
        rw [hmd] at hpredm hsurvm
        have hpredR : originPred ids o Direction.RIGHT ((o, m) : Nat × Message) = false :=
          originPred_false_dir _ _ _ _ (by rw [hmd]; simp)
        rcases Bool.eq_false_or_eq_true ((pAt s o).confirm_right) with hother | hother
        · rcases Nat.lt_or_ge (2 ^ (pAt s o).phase) (pAt s o).ring_size with hrad | hrad
          · -- full confirmation below full radius: advance a phase
            have hhm := hm_confL_adv (pAt s o) m hco hrt hmd hother (by omega)
            have hprocs' : s'.procs = s.procs.set o
                { pAt s o with
                  phase := (pAt s o).phase + 1,
                  confirm_left := false, confirm_right := false,
                  message_counter := (pAt s o).message_counter + 2 } := by
              rw [hs', hhm, start_phase_fst]
            have hinfl' : s'.inflight = s.inflight.eraseIdx k ++
                [(left_of s.procs.length o,
                  { origin_id := (pAt s o).pid, direction := Direction.LEFT,
                    phase := (pAt s o).phase + 1,
                    distance := (2 ^ ((pAt s o).phase + 1) : Int),
                    returning := false }),
                 (right_of s.procs.length o,
                  { origin_id := (pAt s o).pid, direction := Direction.RIGHT,
                    phase := (pAt s o).phase + 1,
                    distance := (2 ^ ((pAt s o).phase + 1) : Int),
                    returning := false })] := by
              rw [hs', hhm, start_phase_sends]
            have hpA_o : pAt s' o =
                { pAt s o with
                  phase := (pAt s o).phase + 1,
                  confirm_left := false, confirm_right := false,
                  message_counter := (pAt s o).message_counter + 2 } := by
              unfold pAt
              rw [hprocs']
              exact getD_set_self _ _ _ _ hj
            have hpA_ne : ∀ o', o' ≠ o → pAt s' o' = pAt s o' := by
              intro o' hne
              unfold pAt
              rw [hprocs']
              exact getD_set_ne _ _ _ _ _ (fun he => hne he.symm)
            have hcR0 : cnt ids s o Direction.RIGHT = 0 := (hconfRj hother).2
            have hcnt'L : cnt ids s' o Direction.LEFT = 1 := by
              unfold cnt
              rw [hinfl', List.countP_append, countP_two]
              rw [(originPred_true_iff ids o Direction.LEFT
                (left_of s.procs.length o,
                 { origin_id := (pAt s o).pid, direction := Direction.LEFT,
                   phase := (pAt s o).phase + 1,
                   distance := (2 ^ ((pAt s o).phase + 1) : Int),
                   returning := false })).mpr ⟨hpidj, rfl⟩]
              rw [originPred_false_dir ids o Direction.LEFT
                (right_of s.procs.length o,
                 { origin_id := (pAt s o).pid, direction := Direction.RIGHT,
                   phase := (pAt s o).phase + 1,
                   distance := (2 ^ ((pAt s o).phase + 1) : Int),
                   returning := false }) (by simp)]
              have h1 := herase_true o Direction.LEFT hpredm
              have h2 := hle1Lj
              unfold cnt at h1 h2
              simp only [Nat.add_zero, Nat.zero_add, if_true, if_false,
                Bool.false_eq_true, ite_true, ite_false] at h1 h2 ⊢
              omega
            have hcnt'R : cnt ids s' o Direction.RIGHT = 1 := by
              unfold cnt
              rw [hinfl', List.countP_append, countP_two]
              rw [originPred_false_dir ids o Direction.RIGHT
                (left_of s.procs.length o,
                 { origin_id := (pAt s o).pid, direction := Direction.LEFT,
                   phase := (pAt s o).phase + 1,
                   distance := (2 ^ ((pAt s o).phase + 1) : Int),
                   returning := false }) (by simp)]
              rw [(originPred_true_iff ids o Direction.RIGHT
                (right_of s.procs.length o,
                 { origin_id := (pAt s o).pid, direction := Direction.RIGHT,
                   phase := (pAt s o).phase + 1,
                   distance := (2 ^ ((pAt s o).phase + 1) : Int),
                   returning := false })).mpr ⟨hpidj, rfl⟩]
              have h1 := herase_false o Direction.RIGHT hpredR
              have h2 := hcR0
              unfold cnt at h1 h2
              simp only [Nat.add_zero, Nat.zero_add, if_true, if_false,
                Bool.false_eq_true, ite_true, ite_false] at h1 h2 ⊢
              omega
            have herL0 : (s.inflight.eraseIdx k).countP
                (originPred ids o Direction.LEFT) = 0 := by
              have := herase_true o Direction.LEFT hpredm
              omega
            have herR0 : (s.inflight.eraseIdx k).countP
                (originPred ids o Direction.RIGHT) = 0 := by
              have := herase_false o Direction.RIGHT hpredR
              omega
            have hnone := no_origin_of_countP_zero herL0 herR0
            have hcnt'ne : ∀ o' d, o' < ids.length → o' ≠ o →
                cnt ids s' o' d = cnt ids s o' d := by
              intro o' d ho' hne
              have hneo' : ¬(pAt s o).pid = ids.getD o' 0 := by
                rw [hpidj]
                exact fun he => hne (nodup_getD_inj hnd ho ho' he).symm
              unfold cnt
              rw [hinfl', List.countP_append, countP_two]
              rw [originPred_false_origin ids o' d
                (left_of s.procs.length o,
                 { origin_id := (pAt s o).pid, direction := Direction.LEFT,
                   phase := (pAt s o).phase + 1,
                   distance := (2 ^ ((pAt s o).phase + 1) : Int),
                   returning := false }) hneo']
              rw [originPred_false_origin ids o' d
                (right_of s.procs.length o,
                 { origin_id := (pAt s o).pid, direction := Direction.RIGHT,
                   phase := (pAt s o).phase + 1,
                   distance := (2 ^ ((pAt s o).phase + 1) : Int),
                   returning := false }) hneo']
              have h1 := herase_false o' d (hpred_ne o' d ho' hne)
              unfold cnt at h1
              simp only [Nat.add_zero, Nat.zero_add, if_true, if_false,
                Bool.false_eq_true, ite_true, ite_false] at h1 ⊢
              omega
            refine ⟨by rw [hprocs']; simpa [List.length_set] using hlen, ?_, ?_⟩
            · intro o' ho'
              by_cases hoo : o' = o
              · subst hoo
                rw [ProcOK, hpA_o, hcnt'L, hcnt'R]
                have hlt : 2 ^ (pAt s o').phase < ids.length := by
                  rw [← hringj]
                  exact hrad
                refine ⟨by simpa using hpidj, by simpa using hringj,
                  by simp [hst], ?_, by simp, by simp, by omega, by omega,
                  ?_, ?_⟩
                · intro _
                  exact Or.inr (by simpa using hlt)
                · intro jm' hmem' horig'
                  rw [hinfl'] at hmem'
                  rcases List.mem_append.mp hmem' with hold | hnew
                  · exact absurd horig' (by simpa [hpidj] using hnone jm' hold)
                  · simp only [List.mem_cons, List.mem_singleton,
                      List.not_mem_nil, or_false] at hnew
                    rcases hnew with h1 | h1
                    · simp [h1]
                    · simp [h1]
                · intro hx
                  exact absurd hx (by simp [hrun])
              · obtain ⟨hpid', hring', hfresh', hstar', hconfL', hconfR', hle1L,
                  hle1R, hphm', hstop'⟩ := hP o' ho'
                rw [ProcOK, hpA_ne o' hoo, hcnt'ne o' Direction.LEFT ho' hoo,
                  hcnt'ne o' Direction.RIGHT ho' hoo]
                refine ⟨hpid', hring', hfresh', hstar', hconfL', hconfR', hle1L,
                  hle1R, ?_, hstop'⟩
                intro jm' hmem' horig'
                rw [hinfl'] at hmem'
                rcases List.mem_append.mp hmem' with hold | hnew
                · exact hphm' jm' (mem_of_mem_eraseIdx hold) horig'
                · have hneo' : ¬(pAt s o).pid = ids.getD o' 0 := by
                    rw [hpidj]
                    exact fun he => hoo (nodup_getD_inj hnd ho ho' he).symm
                  simp only [List.mem_cons, List.mem_singleton,
                    List.not_mem_nil, or_false] at hnew
                  rcases hnew with h1 | h1
                  · rw [h1] at horig'
                    exact absurd horig' hneo'
                  · rw [h1] at horig'
                    exact absurd horig' hneo'
            · intro jm' hmem'
              rw [hinfl'] at hmem'
              rcases List.mem_append.mp hmem' with hold | hnew
              · exact hM jm' (mem_of_mem_eraseIdx hold)
              · simp only [List.mem_cons, List.mem_singleton,
                  List.not_mem_nil, or_false] at hnew
                have hL := MsgOK_fresh ids o ho Direction.LEFT ((pAt s o).phase + 1)
                have hR := MsgOK_fresh ids o ho Direction.RIGHT ((pAt s o).phase + 1)
                rcases hnew with h1 | h1
                · rw [h1]
                  simpa [hpidj, offD, left_of_eq_offL ids.length o hnpos, hlen]
                    using hL
                · rw [h1]
                  simpa [hpidj, offD, right_of_eq_offR, hlen] using hR
          · -- full confirmation at full radius: become leader and stop
            have hhm := hm_confL_term (pAt s o) m hco hrt hmd hother (by omega)
            have hprocs' : s'.procs = s.procs.set o
                { pAt s o with confirm_left := true, running := false } := by
              rw [hs', hhm]
            have hinfl' : s'.inflight = s.inflight.eraseIdx k := by
              rw [hs', hhm]
              simp
            have hpA_o : pAt s' o =
                { pAt s o with confirm_left := true, running := false } := by
              unfold pAt
              rw [hprocs']
              exact getD_set_self _ _ _ _ hj
            have hpA_ne : ∀ o', o' ≠ o → pAt s' o' = pAt s o' := by
              intro o' hne
              unfold pAt
              rw [hprocs']
              exact getD_set_ne _ _ _ _ _ (fun he => hne he.symm)
            have hcnt'L : cnt ids s' o Direction.LEFT = 0 := by
              unfold cnt
              rw [hinfl']
              have := herase_true o Direction.LEFT hpredm
              omega
            have hcnt'R : cnt ids s' o Direction.RIGHT = cnt ids s o Direction.RIGHT := by
              unfold cnt
              rw [hinfl']
              exact herase_false o Direction.RIGHT hpredR
            have hcnt'ne : ∀ o' d, o' < ids.length → o' ≠ o →
                cnt ids s' o' d = cnt ids s o' d := by
              intro o' d ho' hne
              unfold cnt
              rw [hinfl']
              exact herase_false o' d (hpred_ne o' d ho' hne)
            refine ⟨by rw [hprocs']; simpa [List.length_set] using hlen, ?_, ?_⟩
            · intro o' ho'
              by_cases hoo : o' = o
              · subst hoo
                rw [ProcOK, hpA_o, hcnt'L, hcnt'R]
                refine ⟨by simpa using hpidj, by simpa using hringj,
                  by simp [hst], ?_, ?_, ?_, by omega, hle1Rj, ?_, ?_⟩
                · intro _
                  simpa using hstarj hst
                · intro _
                  refine ⟨?_, rfl⟩
                  have : (2 : Nat) ^ m.phase = 2 ^ (pAt s o').phase := by rw [hmph]
                  simpa using this ▸ hsurvm
                · intro _
                  refine ⟨?_, (hconfRj hother).2⟩
                  simpa using (hconfRj hother).1
                · intro jm' hmem' horig'
                  rw [hinfl'] at hmem'
                  simpa using hphmj jm' (mem_of_mem_eraseIdx hmem') horig'
                · intro _
                  refine ⟨by simpa using hst, by simp, by simpa using hother, ?_⟩
                  have : ids.length ≤ 2 ^ (pAt s o').phase := by
                    rw [← hringj]
                    exact hrad
                  simpa using this
              · obtain ⟨hpid', hring', hfresh', hstar', hconfL', hconfR', hle1L,
                  hle1R, hphm', hstop'⟩ := hP o' ho'
                rw [ProcOK, hpA_ne o' hoo, hcnt'ne o' Direction.LEFT ho' hoo,
                  hcnt'ne o' Direction.RIGHT ho' hoo]
                refine ⟨hpid', hring', hfresh', hstar', hconfL', hconfR', hle1L,
                  hle1R, ?_, hstop'⟩
                intro jm' hmem' horig'
                rw [hinfl'] at hmem'
                exact hphm' jm' (mem_of_mem_eraseIdx hmem') horig'
            · intro jm' hmem'
              rw [hinfl'] at hmem'
              exact hM jm' (mem_of_mem_eraseIdx hmem')
        · -- opposite flag unset: record the confirmation, send nothing
          have hhm := hm_confL_notboth (pAt s o) m hco hrt hmd hother
          have hprocs' : s'.procs =
              s.procs.set o { pAt s o with confirm_left := true } := by
            rw [hs', hhm]
          have hinfl' : s'.inflight = s.inflight.eraseIdx k := by
            rw [hs', hhm]
            simp
          have hpA_o : pAt s' o = { pAt s o with confirm_left := true } := by
            unfold pAt
            rw [hprocs']
            exact getD_set_self _ _ _ _ hj
          have hpA_ne : ∀ o', o' ≠ o → pAt s' o' = pAt s o' := by
            intro o' hne
            unfold pAt
            rw [hprocs']
            exact getD_set_ne _ _ _ _ _ (fun he => hne he.symm)
          have hcnt'L : cnt ids s' o Direction.LEFT = 0 := by
            unfold cnt
            rw [hinfl']
            have := herase_true o Direction.LEFT hpredm
            omega
          have hcnt'R : cnt ids s' o Direction.RIGHT = cnt ids s o Direction.RIGHT := by
            unfold cnt
            rw [hinfl']
            exact herase_false o Direction.RIGHT hpredR
          have hcnt'ne : ∀ o' d, o' < ids.length → o' ≠ o →
              cnt ids s' o' d = cnt ids s o' d := by
            intro o' d ho' hne
            unfold cnt
            rw [hinfl']
            exact herase_false o' d (hpred_ne o' d ho' hne)
          refine ⟨by rw [hprocs']; simpa [List.length_set] using hlen, ?_, ?_⟩
          · intro o' ho'
            by_cases hoo : o' = o
            · subst hoo
              rw [ProcOK, hpA_o, hcnt'L, hcnt'R]
              refine ⟨by simpa using hpidj, by simpa using hringj,
                by simp [hst], ?_, ?_, ?_, by omega, hle1Rj, ?_, ?_⟩
              · intro _
                simpa using hstarj hst
              · intro _
                refine ⟨?_, rfl⟩
                have : (2 : Nat) ^ m.phase = 2 ^ (pAt s o').phase := by rw [hmph]
                simpa using this ▸ hsurvm
              · intro hx
                exact absurd hx (by simp [hother])
              · intro jm' hmem' horig'
                rw [hinfl'] at hmem'
                simpa using hphmj jm' (mem_of_mem_eraseIdx hmem') horig'
              · intro hx
                exact absurd hx (by simp [hrun])
            · obtain ⟨hpid', hring', hfresh', hstar', hconfL', hconfR', hle1L,
                hle1R, hphm', hstop'⟩ := hP o' ho'
              rw [ProcOK, hpA_ne o' hoo, hcnt'ne o' Direction.LEFT ho' hoo,
                hcnt'ne o' Direction.RIGHT ho' hoo]
              refine ⟨hpid', hring', hfresh', hstar', hconfL', hconfR', hle1L,
                hle1R, ?_, hstop'⟩
              intro jm' hmem' horig'
              rw [hinfl'] at hmem'
              exact hphm' jm' (mem_of_mem_eraseIdx hmem') horig'
          · intro jm' hmem'
            rw [hinfl'] at hmem'
            exact hM jm' (mem_of_mem_eraseIdx hmem')
      | RIGHT =>
        rw [hmd] at hpredm hsurvm
        have hpredL : originPred ids o Direction.LEFT ((o, m) : Nat × Message) = false :=
          originPred_false_dir _ _ _ _ (by rw [hmd]; simp)
        rcases Bool.eq_false_or_eq_true ((pAt s o).confirm_left) with hother | hother
        · rcases Nat.lt_or_ge (2 ^ (pAt s o).phase) (pAt s o).ring_size with hrad | hrad
          · -- full confirmation below full radius: advance a phase
            have hhm := hm_confR_adv (pAt s o) m hco hrt hmd hother (by omega)
            have hprocs' : s'.procs = s.procs.set o
                { pAt s o with
                  phase := (pAt s o).phase + 1,
                  confirm_right := false, confirm_left := false,
                  message_counter := (pAt s o).message_counter + 2 } := by
              rw [hs', hhm, start_phase_fst]
            have hinfl' : s'.inflight = s.inflight.eraseIdx k ++
                [(left_of s.procs.length o,
                  { origin_id := (pAt s o).pid, direction := Direction.LEFT,
                    phase := (pAt s o).phase + 1,
                    distance := (2 ^ ((pAt s o).phase + 1) : Int),
                    returning := false }),
                 (right_of s.procs.length o,
                  { origin_id := (pAt s o).pid, direction := Direction.RIGHT,
                    phase := (pAt s o).phase + 1,
                    distance := (2 ^ ((pAt s o).phase + 1) : Int),
                    returning := false })] := by
              rw [hs', hhm, start_phase_sends]
            have hpA_o : pAt s' o =
                { pAt s o with
                  phase := (pAt s o).phase + 1,
                  confirm_right := false, confirm_left := false,
                  message_counter := (pAt s o).message_counter + 2 } := by
              unfold pAt
              rw [hprocs']
              exact getD_set_self _ _ _ _ hj
            have hpA_ne : ∀ o', o' ≠ o → pAt s' o' = pAt s o' := by
              intro o' hne
              unfold pAt
              rw [hprocs']
              exact getD_set_ne _ _ _ _ _ (fun he => hne he.symm)
            have hcL0 : cnt ids s o Direction.LEFT = 0 := (hconfLj hother).2
            have hcnt'R : cnt ids s' o Direction.RIGHT = 1 := by
              unfold cnt
              rw [hinfl', List.countP_append, countP_two]
              rw [originPred_false_dir ids o Direction.RIGHT
                (left_of s.procs.length o,
                 { origin_id := (pAt s o).pid, direction := Direction.LEFT,
                   phase := (pAt s o).phase + 1,
                   distance := (2 ^ ((pAt s o).phase + 1) : Int),
                   returning := false }) (by simp)]
              rw [(originPred_true_iff ids o Direction.RIGHT
                (right_of s.procs.length o,
                 { origin_id := (pAt s o).pid, direction := Direction.RIGHT,
                   phase := (pAt s o).phase + 1,
                   distance := (2 ^ ((pAt s o).phase + 1) : Int),
                   returning := false })).mpr ⟨hpidj, rfl⟩]
              have h1 := herase_true o Direction.RIGHT hpredm
              have h2 := hle1Rj
              unfold cnt at h1 h2
              simp only [Nat.add_zero, Nat.zero_add, if_true, if_false,
                Bool.false_eq_true, ite_true, ite_false] at h1 h2 ⊢
              omega
            have hcnt'L : cnt ids s' o Direction.LEFT = 1 := by
              unfold cnt
              rw [hinfl', List.countP_append, countP_two]
              rw [(originPred_true_iff ids o Direction.LEFT
                (left_of s.procs.length o,
                 { origin_id := (pAt s o).pid, direction := Direction.LEFT,
                   phase := (pAt s o).phase + 1,
                   distance := (2 ^ ((pAt s o).phase + 1) : Int),
                   returning := false })).mpr ⟨hpidj, rfl⟩]
              rw [originPred_false_dir ids o Direction.LEFT
                (right_of s.procs.length o,
                 { origin_id := (pAt s o).pid, direction := Direction.RIGHT,
                   phase := (pAt s o).phase + 1,
                   distance := (2 ^ ((pAt s o).phase + 1) : Int),
                   returning := false }) (by simp)]
              have h1 := herase_false o Direction.LEFT hpredL
              have h2 := hcL0
              unfold cnt at h1 h2
              simp only [Nat.add_zero, Nat.zero_add, if_true, if_false,
                Bool.false_eq_true, ite_true, ite_false] at h1 h2 ⊢
              omega
            have herR0 : (s.inflight.eraseIdx k).countP
                (originPred ids o Direction.RIGHT) = 0 := by
              have := herase_true o Direction.RIGHT hpredm
              omega
            have herL0 : (s.inflight.eraseIdx k).countP
                (originPred ids o Direction.LEFT) = 0 := by
              have := herase_false o Direction.LEFT hpredL
              omega
            have hnone := no_origin_of_countP_zero herL0 herR0
            have hcnt'ne : ∀ o' d, o' < ids.length → o' ≠ o →
                cnt ids s' o' d = cnt ids s o' d := by
              intro o' d ho' hne
              have hneo' : ¬(pAt s o).pid = ids.getD o' 0 := by
                rw [hpidj]
                exact fun he => hne (nodup_getD_inj hnd ho ho' he).symm
              unfold cnt
              rw [hinfl', List.countP_append, countP_two]
              rw [originPred_false_origin ids o' d
                (left_of s.procs.length o,
                 { origin_id := (pAt s o).pid, direction := Direction.LEFT,
                   phase := (pAt s o).phase + 1,
                   distance := (2 ^ ((pAt s o).phase + 1) : Int),
                   returning := false }) hneo']
              rw [originPred_false_origin ids o' d
                (right_of s.procs.length o,
                 { origin_id := (pAt s o).pid, direction := Direction.RIGHT,
                   phase := (pAt s o).phase + 1,
                   distance := (2 ^ ((pAt s o).phase + 1) : Int),
                   returning := false }) hneo']
              have h1 := herase_false o' d (hpred_ne o' d ho' hne)
              unfold cnt at h1
              simp only [Nat.add_zero, Nat.zero_add, if_true, if_false,
                Bool.false_eq_true, ite_true, ite_false] at h1 ⊢
              omega
            refine ⟨by rw [hprocs']; simpa [List.length_set] using hlen, ?_, ?_⟩
            · intro o' ho'
              by_cases hoo : o' = o
              · subst hoo
                rw [ProcOK, hpA_o, hcnt'R, hcnt'L]
                have hlt : 2 ^ (pAt s o').phase < ids.length := by
                  rw [← hringj]
                  exact hrad
                refine ⟨by simpa using hpidj, by simpa using hringj,
                  by simp [hst], ?_, by simp, by simp, by omega, by omega,
                  ?_, ?_⟩
                · intro _
                  exact Or.inr (by simpa using hlt)
                · intro jm' hmem' horig'
                  rw [hinfl'] at hmem'
                  rcases List.mem_append.mp hmem' with hold | hnew
                  · exact absurd horig' (by simpa [hpidj] using hnone jm' hold)
                  · simp only [List.mem_cons, List.mem_singleton,
                      List.not_mem_nil, or_false] at hnew
                    rcases hnew with h1 | h1
                    · simp [h1]
                    · simp [h1]
                · intro hx
                  exact absurd hx (by simp [hrun])
              · obtain ⟨hpid', hring', hfresh', hstar', hconfL', hconfR', hle1L,
                  hle1R, hphm', hstop'⟩ := hP o' ho'
                rw [ProcOK, hpA_ne o' hoo, hcnt'ne o' Direction.RIGHT ho' hoo,
                  hcnt'ne o' Direction.LEFT ho' hoo]
                refine ⟨hpid', hring', hfresh', hstar', hconfL', hconfR', hle1L,
                  hle1R, ?_, hstop'⟩
                intro jm' hmem' horig'
                rw [hinfl'] at hmem'
                rcases List.mem_append.mp hmem' with hold | hnew
                · exact hphm' jm' (mem_of_mem_eraseIdx hold) horig'
                · have hneo' : ¬(pAt s o).pid = ids.getD o' 0 := by
                    rw [hpidj]
                    exact fun he => hoo (nodup_getD_inj hnd ho ho' he).symm
                  simp only [List.mem_cons, List.mem_singleton,
                    List.not_mem_nil, or_false] at hnew
                  rcases hnew with h1 | h1
                  · rw [h1] at horig'
                    exact absurd horig' hneo'
                  · rw [h1] at horig'
                    exact absurd horig' hneo'
            · intro jm' hmem'
              rw [hinfl'] at hmem'
              rcases List.mem_append.mp hmem' with hold | hnew
              · exact hM jm' (mem_of_mem_eraseIdx hold)
              · simp only [List.mem_cons, List.mem_singleton,
                  List.not_mem_nil, or_false] at hnew
                have hL := MsgOK_fresh ids o ho Direction.LEFT ((pAt s o).phase + 1)
                have hR := MsgOK_fresh ids o ho Direction.RIGHT ((pAt s o).phase + 1)
                rcases hnew with h1 | h1
                · rw [h1]
                  simpa [hpidj, offD, left_of_eq_offL ids.length o hnpos, hlen]
                    using hL
                · rw [h1]
                  simpa [hpidj, offD, right_of_eq_offR, hlen] using hR
          · -- full confirmation at full radius: become leader and stop
            have hhm := hm_confR_term (pAt s o) m hco hrt hmd hother (by omega)
            have hprocs' : s'.procs = s.procs.set o
                { pAt s o with confirm_right := true, running := false } := by
              rw [hs', hhm]
            have hinfl' : s'.inflight = s.inflight.eraseIdx k := by
              rw [hs', hhm]
              simp
            have hpA_o : pAt s' o =
                { pAt s o with confirm_right := true, running := false } := by
              unfold pAt
              rw [hprocs']
              exact getD_set_self _ _ _ _ hj
            have hpA_ne : ∀ o', o' ≠ o → pAt s' o' = pAt s o' := by
              intro o' hne
              unfold pAt
              rw [hprocs']
              exact getD_set_ne _ _ _ _ _ (fun he => hne he.symm)
            have hcnt'R : cnt ids s' o Direction.RIGHT = 0 := by
              unfold cnt
              rw [hinfl']
              have := herase_true o Direction.RIGHT hpredm
              omega
            have hcnt'L : cnt ids s' o Direction.LEFT = cnt ids s o Direction.LEFT := by
              unfold cnt
              rw [hinfl']
              exact herase_false o Direction.LEFT hpredL
            have hcnt'ne : ∀ o' d, o' < ids.length → o' ≠ o →
                cnt ids s' o' d = cnt ids s o' d := by
              intro o' d ho' hne
              unfold cnt
              rw [hinfl']
              exact herase_false o' d (hpred_ne o' d ho' hne)
            refine ⟨by rw [hprocs']; simpa [List.length_set] using hlen, ?_, ?_⟩
            · intro o' ho'
              by_cases hoo : o' = o
              · subst hoo
                rw [ProcOK, hpA_o, hcnt'R, hcnt'L]
                refine ⟨by simpa using hpidj, by simpa using hringj,
                  by simp [hst], ?_, ?_, ?_, hle1Lj, by omega, ?_, ?_⟩
                · intro _
                  simpa using hstarj hst
                · intro _
                  refine ⟨?_, (hconfLj hother).2⟩
                  simpa using (hconfLj hother).1
                · intro _
                  refine ⟨?_, rfl⟩
                  have : (2 : Nat) ^ m.phase = 2 ^ (pAt s o').phase := by rw [hmph]
                  simpa using this ▸ hsurvm
                · intro jm' hmem' horig'
                  rw [hinfl'] at hmem'
                  simpa using hphmj jm' (mem_of_mem_eraseIdx hmem') horig'
                · intro _
                  refine ⟨by simpa using hst, by simpa using hother, by simp, ?_⟩
                  have : ids.length ≤ 2 ^ (pAt s o').phase := by
                    rw [← hringj]
                    exact hrad
                  simpa using this
              · obtain ⟨hpid', hring', hfresh', hstar', hconfL', hconfR', hle1L,
                  hle1R, hphm', hstop'⟩ := hP o' ho'
                rw [ProcOK, hpA_ne o' hoo, hcnt'ne o' Direction.RIGHT ho' hoo,
                  hcnt'ne o' Direction.LEFT ho' hoo]
                refine ⟨hpid', hring', hfresh', hstar', hconfL', hconfR', hle1L,
                  hle1R, ?_, hstop'⟩
                intro jm' hmem' horig'
                rw [hinfl'] at hmem'
                exact hphm' jm' (mem_of_mem_eraseIdx hmem') horig'
            · intro jm' hmem'
              rw [hinfl'] at hmem'
              exact hM jm' (mem_of_mem_eraseIdx hmem')
        · -- opposite flag unset: record the confirmation, send nothing
          have hhm := hm_confR_notboth (pAt s o) m hco hrt hmd hother
          have hprocs' : s'.procs =
              s.procs.set o { pAt s o with confirm_right := true } := by
            rw [hs', hhm]
          have hinfl' : s'.inflight = s.inflight.eraseIdx k := by
            rw [hs', hhm]
            simp
          have hpA_o : pAt s' o = { pAt s o with confirm_right := true } := by
            unfold pAt
            rw [hprocs']
            exact getD_set_self _ _ _ _ hj
          have hpA_ne : ∀ o', o' ≠ o → pAt s' o' = pAt s o' := by
            intro o' hne
            unfold pAt
            rw [hprocs']
            exact getD_set_ne _ _ _ _ _ (fun he => hne he.symm)
          have hcnt'R : cnt ids s' o Direction.RIGHT = 0 := by
            unfold cnt
            rw [hinfl']
            have := herase_true o Direction.RIGHT hpredm
            omega
          have hcnt'L : cnt ids s' o Direction.LEFT = cnt ids s o Direction.LEFT := by
            unfold cnt
            rw [hinfl']
            exact herase_false o Direction.LEFT hpredL
          have hcnt'ne : ∀ o' d, o' < ids.length → o' ≠ o →
              cnt ids s' o' d = cnt ids s o' d := by
            intro o' d ho' hne
            unfold cnt
            rw [hinfl']
            exact herase_false o' d (hpred_ne o' d ho' hne)
          refine ⟨by rw [hprocs']; simpa [List.length_set] using hlen, ?_, ?_⟩
          · intro o' ho'
            by_cases hoo : o' = o
            · subst hoo
              rw [ProcOK, hpA_o, hcnt'R, hcnt'L]
              refine ⟨by simpa using hpidj, by simpa using hringj,
                by simp [hst], ?_, ?_, ?_, hle1Lj, by omega, ?_, ?_⟩
              · intro _
                simpa using hstarj hst
              · intro hx
                exact absurd hx (by simp [hother])
              · intro _
                refine ⟨?_, rfl⟩
                have : (2 : Nat) ^ m.phase = 2 ^ (pAt s o').phase := by rw [hmph]
                simpa using this ▸ hsurvm
              · intro jm' hmem' horig'
                rw [hinfl'] at hmem'
                simpa using hphmj jm' (mem_of_mem_eraseIdx hmem') horig'
              · intro hx
                exact absurd hx (by simp [hrun])
            · obtain ⟨hpid', hring', hfresh', hstar', hconfL', hconfR', hle1L,
                hle1R, hphm', hstop'⟩ := hP o' ho'
              rw [ProcOK, hpA_ne o' hoo, hcnt'ne o' Direction.RIGHT ho' hoo,
                hcnt'ne o' Direction.LEFT ho' hoo]
              refine ⟨hpid', hring', hfresh', hstar', hconfL', hconfR', hle1L,
                hle1R, ?_, hstop'⟩
              intro jm' hmem' horig'
              rw [hinfl'] at hmem'
              exact hphm' jm' (mem_of_mem_eraseIdx hmem') horig'
          · intro jm' hmem'
            rw [hinfl'] at hmem'
            exact hM jm' (mem_of_mem_eraseIdx hmem')
    · -- the forward/turn-around rule
      have hassem : ∀ (m1 : Message) (dest : Nat),
          s'.procs = s.procs.set j
            { pAt s j with message_counter := (pAt s j).message_counter + 1 } →
          s'.inflight = s.inflight.eraseIdx k ++ [(dest, m1)] →
          m1.origin_id = m.origin_id → m1.direction = m.direction →
          m1.phase = m.phase → MsgOK ids dest m1 → Inv ids s' := by
        intro m1 dest hprocs' hinfl' hmo hmd1 hmp1 hmok
        have hpA_j : pAt s' j =
            { pAt s j with message_counter := (pAt s j).message_counter + 1 } := by
          unfold pAt
          rw [hprocs']
          exact getD_set_self _ _ _ _ hj
        have hpA_ne : ∀ o', o' ≠ j → pAt s' o' = pAt s o' := by
          intro o' hne
          unfold pAt
          rw [hprocs']
          exact getD_set_ne _ _ _ _ _ (fun he => hne he.symm)
        have hcnt_all : ∀ o' d, cnt ids s' o' d = cnt ids s o' d := by
          intro o' d
          unfold cnt
          rw [hinfl']
          refine countP_eraseIdx_append_singleton _ _ _ hk _ ?_
          rw [hget]
          exact originPred_congr ids o' d (dest, m1) (j, m) hmo hmd1
        refine ⟨by rw [hprocs']; simpa [List.length_set] using hlen, ?_, ?_⟩
        · intro o' ho'
          obtain ⟨hpid', hring', hfresh', hstar', hconfL', hconfR', hle1L,
            hle1R, hphm', hstop'⟩ := hP o' ho'
          have hphase_new : m1.origin_id = ids.getD o' 0 →
              m1.phase = (pAt s o').phase := by
            intro horig'
            rw [hmp1]
            exact hphm' (j, m) hmem (by rw [← hmo]; exact horig')
          by_cases hoo : o' = j
          · subst hoo
            rw [ProcOK, hpA_j, hcnt_all o' Direction.LEFT,
              hcnt_all o' Direction.RIGHT]
            refine ⟨by simpa using hpid', by simpa using hring',
              by simp [hst], ?_, ?_, ?_, hle1L, hle1R, ?_, ?_⟩
            · intro _
              simpa using hstar' hst
            · intro hx
              exact hconfL' (by simpa using hx)
            · intro hx
              exact hconfR' (by simpa using hx)
            · intro jm' hmem' horig'
              rw [hinfl'] at hmem'
              rcases List.mem_append.mp hmem' with hold | hnew
              · simpa using hphm' jm' (mem_of_mem_eraseIdx hold) horig'
              · simp only [List.mem_cons, List.not_mem_nil, or_false] at hnew
                rw [hnew] at horig' ⊢
                simpa using hphase_new horig'
            · intro hx
              exact absurd hx (by simp [hrun])
          · rw [ProcOK, hpA_ne o' hoo, hcnt_all o' Direction.LEFT,
              hcnt_all o' Direction.RIGHT]
            refine ⟨hpid', hring', hfresh', hstar', hconfL', hconfR', hle1L,
              hle1R, ?_, hstop'⟩
            intro jm' hmem' horig'
            rw [hinfl'] at hmem'
            rcases List.mem_append.mp hmem' with hold | hnew
            · exact hphm' jm' (mem_of_mem_eraseIdx hold) horig'
            · simp only [List.mem_cons, List.not_mem_nil, or_false] at hnew
              rw [hnew] at horig' ⊢
              exact hphase_new horig'
        · intro jm' hmem'
          rw [hinfl'] at hmem'
          rcases List.mem_append.mp hmem' with hold | hnew
          · exact hM jm' (mem_of_mem_eraseIdx hold)
          · simp only [List.mem_cons, List.not_mem_nil, or_false] at hnew
            rw [hnew]
            exact hmok
      rcases Bool.eq_false_or_eq_true m.returning with hr | hr
      · -- relay a returning echo of another process
        have hnc : ¬m.origin_id = (pAt s j).pid := fun he => hconf ⟨he, hr⟩
        have hhm := hm_forward_ret (pAt s j) m hnc hr
        obtain ⟨hd0, hsurvr⟩ := hretm hr
        obtain ⟨dest, hdlt, hinfl'⟩ : ∃ dest, dest < ids.length ∧
            s'.inflight = s.inflight.eraseIdx k ++ [(dest, m)] := by
          cases hmd : m.direction
          · rw [hmd] at hhm
            exact ⟨right_of s.procs.length j,
              by rw [← hlen]; exact Nat.mod_lt _ (by omega),
              by rw [hs', hhm]; rfl⟩
          · rw [hmd] at hhm
            exact ⟨left_of s.procs.length j,
              by rw [← hlen]; exact Nat.mod_lt _ (by omega),
              by rw [hs', hhm]; rfl⟩
        refine hassem m dest (by rw [hs', hhm]) hinfl' rfl rfl rfl ?_
        exact ⟨hdlt, o, ho, hoid, fun _ => ⟨hd0, hsurvr⟩, by simp [hr]⟩
      · -- forward an outbound probe
        have hnk : ¬m.origin_id < (pAt s j).pid := fun hlt => hkill ⟨hr, hlt⟩
        obtain ⟨c, hc1, hdist, hpos, hsurvc⟩ := houtm hr
        have hcast : ((2 ^ m.phase : Nat) : Int) = (2 : Int) ^ m.phase := by
          push_cast
          ring
        have hnewpt : offD ids.length m.direction o (c + 1) ≠ o →
            ids.getD (offD ids.length m.direction o (c + 1)) 0 < ids.getD o 0 := by
          rw [← hpos]
          intro hne
          have hle : ids.getD j 0 ≤ ids.getD o 0 := by
            rw [hoid, ← hpidj]
            exact Nat.le_of_not_lt hnk
          exact lt_of_le_of_ne hle (fun he => hne (nodup_getD_inj hnd hjn ho he))
        have hsurv1 : SurvIds ids m.direction o (c + 1) :=
          SurvIds_extend hsurvc hnewpt
        by_cases hfl : m.distance - 1 = 0
        · -- the probe turns around here
          have hhm := hm_forward_out_flip (pAt s j) m hnk hr hfl
          have hc2 : c + 1 = 2 ^ m.phase := by omega
          obtain ⟨dest, hdlt, hinfl'⟩ : ∃ dest, dest < ids.length ∧
              s'.inflight = s.inflight.eraseIdx k ++
                [(dest,
                  { m with
                    distance := m.distance - 1, returning := true })] := by
            cases hmd : m.direction
            · rw [hmd] at hhm
              exact ⟨right_of s.procs.length j,
                by rw [← hlen]; exact Nat.mod_lt _ (by omega),
                by rw [hs', hhm]; rfl⟩
            · rw [hmd] at hhm
              exact ⟨left_of s.procs.length j,
                by rw [← hlen]; exact Nat.mod_lt _ (by omega),
                by rw [hs', hhm]; rfl⟩
          refine hassem _ dest (by rw [hs', hhm]) hinfl' rfl rfl rfl ?_
          refine ⟨hdlt, o, ho, hoid, ?_, by simp⟩
          intro _
          refine ⟨by simpa using hfl, ?_⟩
          have hs2 : SurvIds ids m.direction o (2 ^ m.phase) := by
            rw [← hc2]
            exact hsurv1
          simpa using hs2
        · -- the probe continues outward
          have hhm := hm_forward_out_go (pAt s j) m hnk hr hfl
          obtain ⟨dest, hdlt, hinfl', hdpos⟩ : ∃ dest, dest < ids.length ∧
              s'.inflight = s.inflight.eraseIdx k ++
                [(dest,
                  { m with
                    distance := m.distance - 1, returning := false })] ∧
              dest = offD ids.length m.direction o (c + 1 + 1) := by
            cases hmd : m.direction
            · rw [hmd] at hhm hpos
              refine ⟨left_of s.procs.length j,
                by rw [← hlen]; exact Nat.mod_lt _ (by omega),
                by rw [hs', hhm]; rfl, ?_⟩
              rw [hlen, left_of_eq_offL ids.length j hnpos]
              show offL ids.length j 1 = offL ids.length o (c + 1 + 1)
              rw [hpos]
              exact offL_add ids.length o (c + 1) 1
            · rw [hmd] at hhm hpos
              refine ⟨right_of s.procs.length j,
                by rw [← hlen]; exact Nat.mod_lt _ (by omega),
                by rw [hs', hhm]; rfl, ?_⟩
              rw [hlen, right_of_eq_offR]
              show offR ids.length j 1 = offR ids.length o (c + 1 + 1)
              rw [hpos]
              exact offR_add ids.length o (c + 1) 1
          refine hassem _ dest (by rw [hs', hhm]) hinfl' rfl rfl rfl ?_
          refine ⟨hdlt, o, ho, hoid, by simp, ?_⟩
          intro _
          refine ⟨c + 1, ?_, ?_, hdpos, hsurv1⟩
          · show c + 1 + 1 ≤ 2 ^ m.phase
            omega
          · show m.distance - 1 = ((2 : Int) ^ m.phase) - ((c + 1 : Nat) : Int)
            push_cast
            omega

/-- Every scheduling step preserves the global invariant. -/
theorem inv_step {ids : List Nat} {s s' : GlobalState} {a : Action}
    (hnd : ids.Nodup) (hI : Inv ids s) (h : step s a = some s') : Inv ids s' := by
  cases a
  · exact inv_start hnd hI h
  · exact inv_deliver hnd hI h

/-- Running any schedule from an invariant state lands in an invariant
state. -/
theorem inv_runActs {ids : List Nat} (hnd : ids.Nodup) :
    ∀ (acts : List Action) (s s' : GlobalState), Inv ids s →
      runActs s acts = some s' → Inv ids s' := by
  intro acts
  induction acts with
  | nil =>
    intro s s' hI h
    obtain rfl : s = s' := by
      simpa [runActs] using h
    exact hI
  | cons a rest ih =>
    intro s s' hI h
    unfold runActs at h
    cases hstep : step s a with
    | none =>
      rw [hstep] at h
      simp at h
    | some s1 =>
      rw [hstep] at h
      exact ih s1 s' (inv_step hnd hI hstep) h

/-- Every reachable state of the election satisfies the invariant. -/
theorem inv_reachable {ids : List Nat} {s : GlobalState} (hnd : ids.Nodup)
    (h : Reachable ids s) : Inv ids s := by
  obtain ⟨acts, hr⟩ := h
  exact inv_runActs hnd acts (init ids) s (inv_init ids) hr

/-- A process that has stopped running holds the strictly greatest
identifier of the ring. -/
theorem terminated_is_max {ids : List Nat} {s : GlobalState}
    (hnd : ids.Nodup) (hreach : Reachable ids s)
    {i : Nat} (hi : i < ids.length) (hterm : (pAt s i).running = false) :
    ∀ q, q < ids.length → q ≠ i → ids.getD q 0 < ids.getD i 0 := by
  have hI := inv_reachable hnd hreach
  obtain ⟨hlen, hP, hM⟩ := hI
  obtain ⟨hpid, hring, -, -, -, hconfR, -, -, -, hstop⟩ := hP i hi
  obtain ⟨-, -, hcr, hrad⟩ := hstop hterm
  obtain ⟨hsurvR, -⟩ := hconfR hcr
  intro q hq hne
  obtain ⟨t, ht1, ht2, hoff⟩ := offR_cover hi hq hne
  have hoffD : offD ids.length Direction.RIGHT i t = q := hoff
  have hres := hsurvR t ht1 (by omega) (by rw [hoffD]; exact hne)
  rwa [hoffD] at hres

/-- Which phases `handle_message` can produce: either the phase is kept, or
the full-confirmation advance fires, with all its side conditions. -/
theorem handle_message_phase (p : ProcState) (m : Message) :
    (handle_message p m).1.phase = p.phase ∨
    ((handle_message p m).1.phase = p.phase + 1 ∧
     (handle_message p m).1.confirm_left = false ∧
     (handle_message p m).1.confirm_right = false ∧
     2 ^ p.phase < p.ring_size ∧
     m.origin_id = p.pid ∧ m.returning = true ∧
     (if m.direction = Direction.LEFT then p.confirm_right = true
      else p.confirm_left = true)) := by
  by_cases hkill : m.returning = false ∧ m.origin_id < p.pid
  · rw [handle_message_kill p m hkill.1 hkill.2]
    exact Or.inl rfl
  · by_cases hconf : m.origin_id = p.pid ∧ m.returning = true
    · cases hmd : m.direction
      · rcases Bool.eq_false_or_eq_true p.confirm_right with hother | hother
        · rcases Nat.lt_or_ge (2 ^ p.phase) p.ring_size with hrad | hrad
          · rw [hm_confL_adv p m hconf.1 hconf.2 hmd hother (by omega)]
            refine Or.inr ⟨rfl, rfl, rfl, hrad, hconf.1, hconf.2, ?_⟩
            simpa using hother
          · rw [hm_confL_term p m hconf.1 hconf.2 hmd hother (by omega)]
            exact Or.inl rfl
        · rw [hm_confL_notboth p m hconf.1 hconf.2 hmd hother]
          exact Or.inl rfl
      · rcases Bool.eq_false_or_eq_true p.confirm_left with hother | hother
        · rcases Nat.lt_or_ge (2 ^ p.phase) p.ring_size with hrad | hrad
          · rw [hm_confR_adv p m hconf.1 hconf.2 hmd hother (by omega)]
            refine Or.inr ⟨rfl, rfl, rfl, hrad, hconf.1, hconf.2, ?_⟩
            simpa using hother
          · rw [hm_confR_term p m hconf.1 hconf.2 hmd hother (by omega)]
            exact Or.inl rfl
        · rw [hm_confR_notboth p m hconf.1 hconf.2 hmd hother]
          exact Or.inl rfl
    · rw [handle_message_forward p m hkill hconf]
      exact Or.inl rfl

/-- C3: a non-returning message whose origin identifier is strictly below
the receiver's identifier is discarded by `handle_message`: no message is
sent in response, and the receiver's phase, confirmation flags and message
counter are unchanged (in fact the whole local state is unchanged). -/
theorem C3_kill_discards (p : ProcState) (m : Message)
    (h1 : m.returning = false) (h2 : m.origin_id < p.pid) :
    handle_message p m = (p, []) ∧
    (handle_message p m).2 = [] ∧
    (handle_message p m).1.phase = p.phase ∧
    (handle_message p m).1.confirm_left = p.confirm_left ∧
    (handle_message p m).1.confirm_right = p.confirm_right ∧
    (handle_message p m).1.message_counter = p.message_counter := by
  rw [handle_message_kill p m h1 h2]
  exact ⟨rfl, rfl, rfl, rfl, rfl, rfl⟩

/-- Witness for C3 at a concrete process and message. -/
theorem C3_kill_discards_witness :
    (({ origin_id := 3, direction := Direction.LEFT, phase := 0, distance := 1,
        returning := false } : Message).returning = false ∧
     ({ origin_id := 3, direction := Direction.LEFT, phase := 0, distance := 1,
        returning := false } : Message).origin_id <
       ({ pid := 9, phase := 0, confirm_left := false, confirm_right := false,
          running := true, message_counter := 0, ring_size := 5,
          started := true } : ProcState).pid) ∧
    handle_message
      { pid := 9, phase := 0, confirm_left := false, confirm_right := false,
        running := true, message_counter := 0, ring_size := 5, started := true }
      { origin_id := 3, direction := Direction.LEFT, phase := 0, distance := 1,
        returning := false } =
      ({ pid := 9, phase := 0, confirm_left := false, confirm_right := false,
         running := true, message_counter := 0, ring_size := 5,
         started := true }, []) :=
  ⟨⟨by decide, by decide⟩,
   (C3_kill_discards
     { pid := 9, phase := 0, confirm_left := false, confirm_right := false,
       running := true, message_counter := 0, ring_size := 5, started := true }
     { origin_id := 3, direction := Direction.LEFT, phase := 0, distance := 1,
       returning := false } (by decide) (by decide)).1⟩

/-- C5: a message that reaches the forward rule is relayed on exactly one
channel; an outbound probe has its distance decremented by exactly one and
turns around exactly when the decrement reaches zero; an outbound probe
continues in its tagged direction while a returning echo reverses it. -/
theorem C5_forward_relay (p : ProcState) (m : Message)
    (hk : ¬(m.returning = false ∧ m.origin_id < p.pid))
    (hc : ¬(m.origin_id = p.pid ∧ m.returning = true)) :
    ∃ (tgt : Target) (m1 : Message),
      handle_message p m =
        ({ p with message_counter := p.message_counter + 1 }, [(tgt, m1)]) ∧
      (m.returning = false →
        m1.distance = m.distance - 1 ∧
        (m1.returning = true ↔ m.distance - 1 = 0) ∧
        m1.direction = m.direction ∧ m1.origin_id = m.origin_id ∧
        m1.phase = m.phase) ∧
      (m.returning = true → m1 = m) ∧
      tgt = (if m.direction = Direction.LEFT
             then (if m1.returning = true then Target.toRight else Target.toLeft)
             else (if m1.returning = true then Target.toLeft
                   else Target.toRight)) := by
  rcases Bool.eq_false_or_eq_true m.returning with hr | hr
  · have hnc : ¬m.origin_id = p.pid := fun he => hc ⟨he, hr⟩
    rw [hm_forward_ret p m hnc hr]
    refine ⟨_, m, rfl, by simp [hr], fun _ => rfl, ?_⟩
    cases hmd : m.direction <;> simp [hr]
  · have hnk : ¬m.origin_id < p.pid := fun hlt => hk ⟨hr, hlt⟩
    by_cases hfl : m.distance - 1 = 0
    · rw [hm_forward_out_flip p m hnk hr hfl]
      refine ⟨_, _, rfl, ?_, by simp [hr], ?_⟩
      · intro _
        exact ⟨rfl, by simp [hfl], rfl, rfl, rfl⟩
      · cases hmd : m.direction <;> simp
    · rw [hm_forward_out_go p m hnk hr hfl]
      refine ⟨_, _, rfl, ?_, by simp [hr], ?_⟩
      · intro _
        exact ⟨rfl, by simp [hfl], rfl, rfl, rfl⟩
      · cases hmd : m.direction <;> simp [hfl]

/-- Witness for C5: a foreign outbound probe one hop from its radius turns
around and is echoed back. -/
theorem C5_forward_relay_witness :
    ¬((({ origin_id := 9, direction := Direction.LEFT, phase := 0,
          distance := 1, returning := false } : Message).returning = false) ∧
      ({ origin_id := 9, direction := Direction.LEFT, phase := 0, distance := 1,
         returning := false } : Message).origin_id <
        ({ pid := 3, phase := 0, confirm_left := false, confirm_right := false,
           running := true, message_counter := 0, ring_size := 5,
           started := true } : ProcState).pid) ∧
    ∃ (tgt : Target) (m1 : Message),
      handle_message
        { pid := 3, phase := 0, confirm_left := false, confirm_right := false,
          running := true, message_counter := 0, ring_size := 5,
          started := true }
        { origin_id := 9, direction := Direction.LEFT, phase := 0,
          distance := 1, returning := false } =
        ({ pid := 3, phase := 0, confirm_left := false, confirm_right := false,
           running := true, message_counter := 0 + 1, ring_size := 5,
           started := true }, [(tgt, m1)]) ∧
      m1.returning = true :=
  ⟨by decide, by
    obtain ⟨tgt, m1, heq, hout, -, -⟩ := C5_forward_relay
      { pid := 3, phase := 0, confirm_left := false, confirm_right := false,
        running := true, message_counter := 0, ring_size := 5, started := true }
      { origin_id := 9, direction := Direction.LEFT, phase := 0, distance := 1,
        returning := false } (by decide) (by decide)
    exact ⟨tgt, m1, heq, ((hout rfl).2.1).mpr (by decide)⟩⟩

/-- C7 counterexample: `connect_ring` wires a duplicate-identifier list and
a single-process list without any failure, while the spec's
`RingTopology.Connect` demands a `ConfigurationError` on both. -/
theorem C7_counterexample :
    connect_ring [7, 7] = [(1, 1), (0, 0)] ∧
    connect_ring [7] = [(0, 0)] ∧
    connect_ring_spec [7, 7] = none ∧
    connect_ring_spec [7] = none := by
  decide

/-- C7 (amended): `connect_ring` performs no validation and cannot fail —
it wires every input list, of any length and with any duplicates, into the
full cyclic neighbour assignment; the only validation of ring size and
identifier uniqueness in the program is `main`'s interactive input loop,
which accepts an N iff `N ≥ 2` and accepts an identifier iff it is positive
and not already taken, re-prompting (not raising) otherwise. -/
theorem C7_ring_setup_validation :
    (∀ pids : List Nat, (connect_ring pids).length = pids.length) ∧
    (∀ (pids : List Nat) (i : Nat), i < pids.length →
      (connect_ring pids).getD i (0, 0) =
        (left_of pids.length i, right_of pids.length i)) ∧
    (∀ n : Int, main_accepts_N n = true ↔ 2 ≤ n) ∧
    (∀ (ids : List Int) (pid : Int),
      main_accepts_id ids pid = true ↔ (0 < pid ∧ pid ∉ ids)) := by
  refine ⟨?_, ?_, ?_, ?_⟩
  · intro pids
    simp [connect_ring]
  · intro pids i hi
    unfold connect_ring
    rw [getD_lt _ _ _ (by simpa using hi), List.get_eq_getElem,
      List.getElem_map, List.getElem_range]
  · intro n
    simp [main_accepts_N]
  · intro ids pid
    simp [main_accepts_id]

/-- Witness for C7's amended theorem at a concrete duplicate list. -/
theorem C7_ring_setup_validation_witness :
    (0 : Nat) < ([7, 7] : List Nat).length ∧
    (connect_ring [7, 7]).getD 0 (0, 0) =
      (left_of ([7, 7] : List Nat).length 0,
       right_of ([7, 7] : List Nat).length 0) :=
  ⟨by decide, C7_ring_setup_validation.2.1 [7, 7] 0 (by decide)⟩

/-- C8 counterexample: a self-originated non-returning message is handled
by the forward rule — a message is sent in response and no failure of any
kind occurs — contradicting the claim that a `ProtocolInvariantViolation`
is raised and surfaced instead of the message being processed. -/
theorem C8_counterexample :
    handle_message
      { pid := 5, phase := 1, confirm_left := false, confirm_right := false,
        running := true, message_counter := 4, ring_size := 2, started := true }
      { origin_id := 5, direction := Direction.LEFT, phase := 1, distance := 1,
        returning := false } =
      ({ pid := 5, phase := 1, confirm_left := false, confirm_right := false,
         running := true, message_counter := 5, ring_size := 2,
         started := true },
       [(Target.toRight,
         { origin_id := 5, direction := Direction.LEFT, phase := 1,
           distance := 0, returning := true })]) ∧
    (handle_message
      { pid := 5, phase := 1, confirm_left := false, confirm_right := false,
        running := true, message_counter := 4, ring_size := 2, started := true }
      { origin_id := 5, direction := Direction.LEFT, phase := 1, distance := 1,
        returning := false }).2 ≠ [] := by
  decide

/-- C8 (amended): the source defines no `ProtocolInvariantViolation`; a
self-originated non-returning message is never rejected — it falls through
the kill and confirmation rules and is relayed by the forward rule like any
other surviving probe, leaving the phase, flags and running state
untouched. -/
theorem C8_self_probe_not_rejected (p : ProcState) (m : Message)
    (hco : m.origin_id = p.pid) (hret : m.returning = false) :
    (handle_message p m).2.length = 1 ∧
    (handle_message p m).1.phase = p.phase ∧
    (handle_message p m).1.confirm_left = p.confirm_left ∧
    (handle_message p m).1.confirm_right = p.confirm_right ∧
    (handle_message p m).1.running = p.running := by
  have hnk : ¬(m.returning = false ∧ m.origin_id < p.pid) := by
    intro hx
    rw [hco] at hx
    exact absurd hx.2 (lt_irrefl _)
  have hnc : ¬(m.origin_id = p.pid ∧ m.returning = true) := by
    intro hx
    rw [hret] at hx
    exact absurd hx.2 (by simp)
  rw [handle_message_forward p m hnk hnc]
  exact ⟨rfl, rfl, rfl, rfl, rfl⟩

/-- Witness for C8's amended theorem. -/
theorem C8_self_probe_not_rejected_witness :
    (({ origin_id := 5, direction := Direction.LEFT, phase := 1, distance := 1,
        returning := false } : Message).origin_id =
      ({ pid := 5, phase := 1, confirm_left := false, confirm_right := false,
         running := true, message_counter := 4, ring_size := 2,
         started := true } : ProcState).pid) ∧
    (handle_message
      { pid := 5, phase := 1, confirm_left := false, confirm_right := false,
        running := true, message_counter := 4, ring_size := 2, started := true }
      { origin_id := 5, direction := Direction.LEFT, phase := 1, distance := 1,
        returning := false }).2.length = 1 :=
  ⟨by decide,
   (C8_self_probe_not_rejected
     { pid := 5, phase := 1, confirm_left := false, confirm_right := false,
       running := true, message_counter := 4, ring_size := 2, started := true }
     { origin_id := 5, direction := Direction.LEFT, phase := 1, distance := 1,
       returning := false } (by decide) (by decide)).1⟩

/-- C9: a self-originated non-returning message is handled by the
forward/turn-around rule exactly like a foreign probe — decremented,
flipped when the distance reaches zero, and forwarded on the channel chosen
by the direction rule; and such messages really arise in normal runs: in
the two-process ring [5, 1], process 5's phase-1 probe comes back to it
still outbound, is relayed, and the run then completes with 5 elected. -/
theorem C9_self_probe_relayed :
    (∀ (p : ProcState) (m : Message), m.origin_id = p.pid →
      m.returning = false →
      handle_message p m =
        ({ p with message_counter := p.message_counter + 1 },
         [((if m.direction = Direction.LEFT
            then (if decide (m.distance - 1 = 0) = true then Target.toRight
                  else Target.toLeft)
            else (if decide (m.distance - 1 = 0) = true then Target.toLeft
                  else Target.toRight)),
           { m with distance := m.distance - 1,
                    returning := decide (m.distance - 1 = 0) })])) ∧
    (runActs (init [5, 1]) elect2pre = some elect2Mid ∧
     (0, { origin_id := 5, direction := Direction.LEFT, phase := 1,
           distance := 1, returning := false }) ∈ elect2Mid.inflight ∧
     (pAt elect2Mid 0).pid = 5 ∧
     runActs (init [5, 1]) elect2 = some elect2End ∧
     (pAt elect2End 0).running = false ∧
     elect2End.stop_event = true) := by
  constructor
  · intro p m hco hret
    have hnk : ¬(m.returning = false ∧ m.origin_id < p.pid) := by
      intro hx
      rw [hco] at hx
      exact absurd hx.2 (lt_irrefl _)
    have hnc : ¬(m.origin_id = p.pid ∧ m.returning = true) := by
      intro hx
      rw [hret] at hx
      exact absurd hx.2 (by simp)
    rw [handle_message_forward p m hnk hnc]
    cases hmd : m.direction <;> simp [hret]
  · exact ⟨rfl, by decide, by decide, rfl, by decide, by decide⟩

/-- Witness for C9, applying its relay rule at the concrete self-originated
probe arising in the [5, 1] run. -/
theorem C9_self_probe_relayed_witness :
    (({ origin_id := 5, direction := Direction.LEFT, phase := 1, distance := 1,
        returning := false } : Message).origin_id =
      ({ pid := 5, phase := 1, confirm_left := false, confirm_right := false,
         running := true, message_counter := 4, ring_size := 2,
         started := true } : ProcState).pid) ∧
    handle_message
      { pid := 5, phase := 1, confirm_left := false, confirm_right := false,
        running := true, message_counter := 4, ring_size := 2, started := true }
      { origin_id := 5, direction := Direction.LEFT, phase := 1, distance := 1,
        returning := false } =
      ({ pid := 5, phase := 1, confirm_left := false, confirm_right := false,
         running := true, message_counter := 4 + 1, ring_size := 2,
         started := true },
       [(Target.toRight,
         { origin_id := 5, direction := Direction.LEFT, phase := 1,
           distance := 0, returning := true })]) :=
  ⟨by decide, by
    have h := C9_self_probe_relayed.1
      { pid := 5, phase := 1, confirm_left := false, confirm_right := false,
        running := true, message_counter := 4, ring_size := 2, started := true }
      { origin_id := 5, direction := Direction.LEFT, phase := 1, distance := 1,
        returning := false } (by decide) (by decide)
    simpa using h⟩

/-- C1: in every reachable state of a ring of at least two processes with
unique identifiers, any process that has reached the terminated state holds
an identifier strictly greater than every other process's (so no non-maximum
process ever terminates and the terminator holds the maximum identifier),
and at most one process ever terminates. -/
theorem C1_unique_max_leader (ids : List Nat) (s : GlobalState)
    (h2 : 2 ≤ ids.length) (hnd : ids.Nodup) (hreach : Reachable ids s)
    (i : Nat) (hi : i < ids.length) (hterm : (pAt s i).running = false) :
    (∀ q, q < ids.length → q ≠ i → ids.getD q 0 < ids.getD i 0) ∧
    (∀ i', i' < ids.length → (pAt s i').running = false → i' = i) := by
  have hmax := terminated_is_max hnd hreach hi hterm
  refine ⟨hmax, ?_⟩
  intro i' hi' hterm'
  by_contra hne
  have hmax' := terminated_is_max hnd hreach hi' hterm'
  have ha := hmax i' hi' hne
  have hb := hmax' i hi (fun he => hne he.symm)
  omega

/-- Witness for C1: in the completed [5, 1] run, process 0 (identifier 5)
has terminated, its identifier beats the other, and it is the only
terminated process. -/
theorem C1_unique_max_leader_witness :
    2 ≤ ([5, 1] : List Nat).length ∧ ([5, 1] : List Nat).Nodup ∧
    Reachable [5, 1] elect2End ∧ (pAt elect2End 0).running = false ∧
    ((∀ q, q < ([5, 1] : List Nat).length → q ≠ 0 →
        ([5, 1] : List Nat).getD q 0 < ([5, 1] : List Nat).getD 0 0) ∧
     (∀ i', i' < ([5, 1] : List Nat).length →
        (pAt elect2End i').running = false → i' = 0)) :=
  ⟨by decide, by decide, ⟨elect2, rfl⟩, by decide,
   C1_unique_max_leader [5, 1] elect2End (by decide) (by decide)
     ⟨elect2, rfl⟩ 0 (by decide) (by decide)⟩

/-- C2: a terminated process stopped at the smallest phase k with
`2 ^ k ≥ N` (its final phase satisfies `2 ^ k ≥ N` while every earlier
phase has `2 ^ k < N`); and locally, when a self-echo makes both
confirmation flags true, `handle_message` stops the process if and only if
`2 ^ phase ≥ ring_size`, and otherwise advances it to phase `k + 1` with
both flags cleared. -/
theorem C2_termination_radius (ids : List Nat) (s : GlobalState)
    (hnd : ids.Nodup) (hreach : Reachable ids s)
    (i : Nat) (hi : i < ids.length) :
    ((pAt s i).running = false →
      ids.length ≤ 2 ^ (pAt s i).phase ∧
      ∀ k, k < (pAt s i).phase → 2 ^ k < ids.length) ∧
    (∀ (p : ProcState) (m : Message), p.running = true →
      m.origin_id = p.pid → m.returning = true →
      (if m.direction = Direction.LEFT then p.confirm_right = true
       else p.confirm_left = true) →
      ((handle_message p m).1.running = false ↔ p.ring_size ≤ 2 ^ p.phase) ∧
      (¬p.ring_size ≤ 2 ^ p.phase →
        (handle_message p m).1.phase = p.phase + 1 ∧
        (handle_message p m).1.confirm_left = false ∧
        (handle_message p m).1.confirm_right = false)) := by
  obtain ⟨hlen, hP, hM⟩ := inv_reachable hnd hreach
  obtain ⟨-, hring, -, hstar, -, -, -, -, -, hstop⟩ := hP i hi
  constructor
  · intro hterm
    obtain ⟨hst, -, -, hrad⟩ := hstop hterm
    refine ⟨hrad, ?_⟩
    intro k hk
    rcases hstar hst with hz | hlt
    · omega
    · calc 2 ^ k ≤ 2 ^ ((pAt s i).phase - 1) :=
        Nat.pow_le_pow_right (by norm_num) (by omega)
      _ < ids.length := hlt
  · intro p m hrun hco hrt hboth
    cases hmd : m.direction
    · rw [hmd, if_pos rfl] at hboth
      by_cases hrad : p.ring_size ≤ 2 ^ p.phase
      · rw [hm_confL_term p m hco hrt hmd hboth hrad]
        exact ⟨⟨fun _ => hrad, fun _ => rfl⟩, fun hx => absurd hrad hx⟩
      · rw [hm_confL_adv p m hco hrt hmd hboth hrad]
        exact ⟨by simp [start_phase, hrun, hrad], fun _ => ⟨rfl, rfl, rfl⟩⟩
    · rw [hmd, if_neg (by simp)] at hboth
      by_cases hrad : p.ring_size ≤ 2 ^ p.phase
      · rw [hm_confR_term p m hco hrt hmd hboth hrad]
        exact ⟨⟨fun _ => hrad, fun _ => rfl⟩, fun hx => absurd hrad hx⟩
      · rw [hm_confR_adv p m hco hrt hmd hboth hrad]
        exact ⟨by simp [start_phase, hrun, hrad], fun _ => ⟨rfl, rfl, rfl⟩⟩

/-- Witness for C2: process 5 of the [5, 1] run terminated at phase 1, the
smallest phase whose radius 2 covers the two-process ring. -/
theorem C2_termination_radius_witness :
    ([5, 1] : List Nat).Nodup ∧ Reachable [5, 1] elect2End ∧
    0 < ([5, 1] : List Nat).length ∧
    ((pAt elect2End 0).running = false →
      ([5, 1] : List Nat).length ≤ 2 ^ (pAt elect2End 0).phase ∧
      ∀ k, k < (pAt elect2End 0).phase → 2 ^ k < ([5, 1] : List Nat).length) :=
  ⟨by decide, ⟨elect2, rfl⟩, by decide,
   (C2_termination_radius [5, 1] elect2End (by decide) ⟨elect2, rfl⟩
     0 (by decide)).1⟩

/-- C4: `start_phase` sends exactly two messages — first a LEFT probe on the
left queue, then a RIGHT probe on the right queue, both with the sender's
identifier, the current phase, distance `2 ^ phase` and `returning = false`;
the left queue is wired to the left neighbour's inbox and the right queue
to the right neighbour's; and both confirmation flags are false whenever
`start_phase` runs — at thread start because a never-started process has
both flags false in every reachable state, and at a phase advance because
`handle_message` passes `start_phase` a state whose flags were just
cleared. -/
theorem C4_start_phase_sends (ids : List Nat) (s : GlobalState) (i : Nat)
    (hnd : ids.Nodup) (hreach : Reachable ids s) (hi : i < ids.length)
    (hst : (pAt s i).started = false) :
    (∀ p : ProcState, start_phase p =
      ({ p with message_counter := p.message_counter + 2 },
       [(Target.toLeft,
         { origin_id := p.pid, direction := Direction.LEFT, phase := p.phase,
           distance := (2 ^ p.phase : Int), returning := false }),
        (Target.toRight,
         { origin_id := p.pid, direction := Direction.RIGHT, phase := p.phase,
           distance := (2 ^ p.phase : Int), returning := false })])) ∧
    (∀ (n i' : Nat) (mm : Message),
      resolve n i' (Target.toLeft, mm) = (left_of n i', mm) ∧
      resolve n i' (Target.toRight, mm) = (right_of n i', mm)) ∧
    ((pAt s i).confirm_left = false ∧ (pAt s i).confirm_right = false) ∧
    (∀ (p : ProcState) (m : Message), m.origin_id = p.pid →
      m.returning = true →
      (if m.direction = Direction.LEFT then p.confirm_right = true
       else p.confirm_left = true) →
      ¬p.ring_size ≤ 2 ^ p.phase →
      handle_message p m = start_phase
        { p with
          phase := p.phase + 1,
          confirm_left := false, confirm_right := false }) := by
  obtain ⟨hlen, hP, hM⟩ := inv_reachable hnd hreach
  obtain ⟨-, -, hfresh, -, -, -, -, -, -, -⟩ := hP i hi
  obtain ⟨-, hcl, hcr, -, -, -⟩ := hfresh hst
  refine ⟨fun p => rfl, fun n i' mm => ⟨rfl, rfl⟩, ⟨hcl, hcr⟩, ?_⟩
  intro p m hco hrt hboth hrad
  cases hmd : m.direction
  · rw [hmd, if_pos rfl] at hboth
    exact hm_confL_adv p m hco hrt hmd hboth hrad
  · rw [hmd, if_neg (by simp)] at hboth
    exact hm_confR_adv p m hco hrt hmd hboth hrad

/-- Witness for C4 at the freshly initialised [5, 1] ring. -/
theorem C4_start_phase_sends_witness :
    ([5, 1] : List Nat).Nodup ∧ Reachable [5, 1] (init [5, 1]) ∧
    0 < ([5, 1] : List Nat).length ∧
    (pAt (init [5, 1]) 0).started = false ∧
    ((pAt (init [5, 1]) 0).confirm_left = false ∧
     (pAt (init [5, 1]) 0).confirm_right = false) :=
  ⟨by decide, ⟨[], rfl⟩, by decide, by decide,
   (C4_start_phase_sends [5, 1] (init [5, 1]) 0 (by decide) ⟨[], rfl⟩
     (by decide) (by decide)).2.2.1⟩

/-- C10: in every reachable state, every in-flight non-returning message
has distance at least 1 and no in-flight message has negative distance (so
the forward rule's decrement is never applied to a message whose distance
is already 0); and `start_phase` only creates probes of distance
`2 ^ phase ≥ 1`. -/
theorem C10_distance_positive (ids : List Nat) (s : GlobalState)
    (hnd : ids.Nodup) (hreach : Reachable ids s) :
    (∀ jm ∈ s.inflight,
      (jm.2.returning = false → 1 ≤ jm.2.distance) ∧ 0 ≤ jm.2.distance) ∧
    (∀ p : ProcState, ∀ tm ∈ (start_phase p).2,
      tm.2.distance = (2 ^ p.phase : Int) ∧ 1 ≤ tm.2.distance) := by
  obtain ⟨hlen, hP, hM⟩ := inv_reachable hnd hreach
  constructor
  · intro jm hmem
    obtain ⟨-, o, ho, hoid, hret, hout⟩ := hM jm hmem
    have hcast : ((2 ^ jm.2.phase : Nat) : Int) = (2 : Int) ^ jm.2.phase := by
      push_cast
      ring
    constructor
    · intro hr
      obtain ⟨c, hc1, hdist, -, -⟩ := hout hr
      omega
    · rcases Bool.eq_false_or_eq_true jm.2.returning with hr | hr
      · obtain ⟨hd0, -⟩ := hret hr
        omega
      · obtain ⟨c, hc1, hdist, -, -⟩ := hout hr
        omega
  · intro p tm hmem
    simp [start_phase] at hmem
    have hpow : (0 : Int) < 2 ^ p.phase := pow_pos (by norm_num) p.phase
    rcases hmem with h1 | h1
    · rw [h1]
      refine ⟨rfl, ?_⟩
      show (1 : Int) ≤ 2 ^ p.phase
      omega
    · rw [h1]
      refine ⟨rfl, ?_⟩
      show (1 : Int) ≤ 2 ^ p.phase
      omega

/-- Witness for C10 at the mid-run state of the [5, 1] schedule, whose two
in-flight phase-1 probes both have distance 1. -/
theorem C10_distance_positive_witness :
    ([5, 1] : List Nat).Nodup ∧ Reachable [5, 1] elect2Mid ∧
    (∀ jm ∈ elect2Mid.inflight,
      (jm.2.returning = false → 1 ≤ jm.2.distance) ∧ 0 ≤ jm.2.distance) :=
  ⟨by decide, ⟨elect2pre, rfl⟩,
   (C10_distance_positive [5, 1] elect2Mid (by decide) ⟨elect2pre, rfl⟩).1⟩

/-- C6: a process's phase counter starts at 0 and, across any scheduling
step, either stays put or increases by exactly 1; it increases only when a
deliver step hands the process its own returning echo while the opposite
confirmation flag is already set (both flags have just become true) with
the radius still below the ring size, and both flags are reset to false at
every such advance. -/
theorem C6_phase_monotone (ids : List Nat) (i : Nat) (s s' : GlobalState)
    (a : Action) (h : step s a = some s') :
    (pAt (init ids) i).phase = 0 ∧
    ((pAt s i).phase ≤ (pAt s' i).phase ∧
     (pAt s' i).phase ≤ (pAt s i).phase + 1) ∧
    ((pAt s' i).phase = (pAt s i).phase + 1 →
      (pAt s' i).confirm_left = false ∧ (pAt s' i).confirm_right = false ∧
      2 ^ (pAt s i).phase < (pAt s i).ring_size ∧
      ∃ (k : Nat) (hk : k < s.inflight.length) (mm : Message),
        a = Action.deliver k ∧ s.inflight.get ⟨k, hk⟩ = (i, mm) ∧
        mm.origin_id = (pAt s i).pid ∧ mm.returning = true ∧
        (if mm.direction = Direction.LEFT then (pAt s i).confirm_right = true
         else (pAt s i).confirm_left = true)) := by
  refine ⟨?_, ?_⟩
  · by_cases hi : i < ids.length
    · rw [pAt_init ids i hi]
    · unfold pAt init
      rw [List.getD_eq_default _ _ (by simpa using Nat.le_of_not_lt hi)]
      rfl
  · cases a with
    | start i0 =>
      obtain ⟨hi0, hst0, hs'⟩ := step_start_eq h
      have hprocs' : s'.procs = s.procs.set i0
          { (start_phase (pAt s i0)).1 with started := true } := by
        rw [hs']
      have hph : (pAt s' i).phase = (pAt s i).phase := by
        unfold pAt
        rw [hprocs']
        by_cases hii : i0 = i
        · subst hii
          rw [getD_set_self _ _ _ _ hi0]
          rfl
        · rw [getD_set_ne _ _ _ _ _ hii]
      
      exact ⟨⟨by omega, by omega⟩, fun hx => absurd hx (by omega)⟩
    | deliver k =>
      obtain ⟨hk, hj, hst, hrun, hs'⟩ := step_deliver_eq h
      rcases hget : s.inflight.get ⟨k, hk⟩ with ⟨j, mm⟩
      rw [hget] at hj hst hrun hs'
      simp only [] at hj hst hrun hs'
      have hprocs' : s'.procs =
          s.procs.set j (handle_message (pAt s j) mm).1 := by
        rw [hs']
      by_cases hji : j = i
      · have hpA : pAt s' i = (handle_message (pAt s i) mm).1 := by
          unfold pAt
          rw [hprocs', hji, getD_set_self _ _ _ _ (hji ▸ hj)]
          rfl
        rcases handle_message_phase (pAt s i) mm with hcase | hcase
        · rw [hpA, hcase]
          exact ⟨⟨le_refl _, by omega⟩, fun hx => absurd hx (by omega)⟩
        · obtain ⟨hp1, hcl', hcr', hrad, hco, hrt, hdir⟩ := hcase
          rw [hpA, hp1]
          refine ⟨⟨by omega, by omega⟩, fun _ => ⟨hcl', hcr', hrad, ?_⟩⟩
          exact ⟨k, hk, mm, rfl, by rw [hget, hji], hco, hrt, hdir⟩
      · have hpA : pAt s' i = pAt s i := by
          unfold pAt
          rw [hprocs']
          exact getD_set_ne _ _ _ _ _ hji
        rw [hpA]
        exact ⟨⟨le_refl _, by omega⟩, fun hx => absurd hx (by omega)⟩

/-- Witness for C6 at the phase-advancing step of the [5, 1] run: after the
first seven deliveries process 5 holds one confirmation and receives the
second, advancing from phase 0 to phase 1. -/
theorem C6_phase_monotone_witness :
    step ((runActs (init [5, 1])
        ([Action.start 0, Action.start 1] ++
          List.replicate 7 (Action.deliver 0))).getD noState)
      (Action.deliver 0) =
      some ((runActs (init [5, 1]) elect2pre).getD noState) ∧
    ((pAt (init [5, 1]) 0).phase = 0 ∧
     ((pAt ((runActs (init [5, 1])
         ([Action.start 0, Action.start 1] ++
           List.replicate 7 (Action.deliver 0))).getD noState) 0).phase ≤
        (pAt ((runActs (init [5, 1]) elect2pre).getD noState) 0).phase ∧
      (pAt ((runActs (init [5, 1]) elect2pre).getD noState) 0).phase ≤
        (pAt ((runActs (init [5, 1])
          ([Action.start 0, Action.start 1] ++
            List.replicate 7 (Action.deliver 0))).getD noState) 0).phase + 1)) :=
  ⟨by decide,
   (C6_phase_monotone [5, 1] 0
      ((runActs (init [5, 1])
        ([Action.start 0, Action.start 1] ++
          List.replicate 7 (Action.deliver 0))).getD noState)
      ((runActs (init [5, 1]) elect2pre).getD noState)
      (Action.deliver 0) (by decide)).1,
   ((C6_phase_monotone [5, 1] 0
      ((runActs (init [5, 1])
        ([Action.start 0, Action.start 1] ++
          List.replicate 7 (Action.deliver 0))).getD noState)
      ((runActs (init [5, 1]) elect2pre).getD noState)
      (Action.deliver 0) (by decide)).2).1⟩

end HSElection
